import Mathlib

/-!
Verification development for the git-filter-repo filtering engine.

The Python sources under src/git_filter_repo are shallowly embedded:
byte strings become `List Nat` (byte values), Python dicts become
association lists looked up from the front (dict keys are unique, so
this matches dict semantics), Python sets become lists queried only for
membership, and fallible code (KeyError, failed assert, SystemExit)
returns `Option`/`Except`.  Responses read back from the fast-import
pipe are modelled as oracle functions.
-/

namespace GitFilterRepo

/-- Byte strings (Python `bytes`) as lists of byte values. -/
abbrev Bytes := List Nat

/-- Association-list lookup, modelling Python `d[k]` / `d.get(k)`:
returns the value of the unique binding of `k`, if any. -/
def alookup {α β : Type} [DecidableEq α] : List (α × β) → α → Option β
  | [], _ => none
  | (k, v) :: rest, key => if key = k then some v else alookup rest key

/-- Association-list insertion, modelling Python `d[k] = v`: replaces
the existing binding in place, otherwise appends a new binding. -/
def ainsert {α β : Type} [DecidableEq α] : List (α × β) → α → β → List (α × β)
  | [], k, v => [(k, v)]
  | (k0, v0) :: rest, k, v =>
      if k = k0 then (k, v) :: rest else (k0, v0) :: ainsert rest k v

theorem alookup_ainsert_self {α β : Type} [DecidableEq α]
    (l : List (α × β)) (k : α) (v : β) : alookup (ainsert l k v) k = some v := by
  induction l with
  | nil => simp [ainsert, alookup]
  | cons hd tl ih =>
      obtain ⟨k0, v0⟩ := hd
      by_cases h : k = k0 <;> simp [ainsert, alookup, h, ih]

theorem alookup_ainsert_ne {α β : Type} [DecidableEq α]
    (l : List (α × β)) (k k' : α) (v : β) (h : k' ≠ k) :
    alookup (ainsert l k v) k' = alookup l k' := by
  induction l with
  | nil => simp [ainsert, alookup, h]
  | cons hd tl ih =>
      obtain ⟨k0, v0⟩ := hd
      by_cases hk : k = k0
      · subst hk; simp [ainsert, alookup, h]
      · by_cases hk' : k' = k0 <;> simp [ainsert, alookup, hk, hk', ih]

/-! ## pathquoting.py -/

/-- Byte-level escape table of `PathQuoting._escape`: identity for bytes
below 127 except for the entries of `_unescape` reversed, and a
backslash followed by three octal digits for bytes 127 and above. -/
def escapeByte (b : Nat) : Bytes :=
  if b = 7 then [92, 97]
  else if b = 8 then [92, 98]
  else if b = 12 then [92, 102]
  else if b = 10 then [92, 110]
  else if b = 13 then [92, 114]
  else if b = 9 then [92, 116]
  else if b = 11 then [92, 118]
  else if b = 34 then [92, 34]
  else if b = 92 then [92, 92]
  else if b < 127 then [b]
  else [92, 48 + b / 64, 48 + (b / 8) % 8, 48 + b % 8]

/-- PathQuoting.enquote: quote only when the path starts with a double
quote (byte 34) or contains a newline (byte 10); when quoting, wrap in
double quotes and escape every byte through the escape table. -/
def enquote (p : Bytes) : Bytes :=
  if p.head? = some 34 ∨ 10 ∈ p then 34 :: (p.map escapeByte).flatten ++ [34]
  else p

/-- Lookup in `PathQuoting._unescape`, keyed by the byte after the
backslash; `none` models the KeyError on a letter with no entry. -/
def unescapeChar (c : Nat) : Option Nat :=
  if c = 97 then some 7
  else if c = 98 then some 8
  else if c = 102 then some 12
  else if c = 110 then some 10
  else if c = 114 then some 13
  else if c = 116 then some 9
  else if c = 118 then some 11
  else if c = 34 then some 34
  else if c = 92 then some 92
  else none

/-- Whether a byte is a lowercase ASCII letter (regex class a-z). -/
def lowerAlpha (c : Nat) : Bool := decide (97 ≤ c ∧ c ≤ 122)

/-- Whether a byte is an ASCII digit (regex class 0-9). -/
def digitByte (c : Nat) : Bool := decide (48 ≤ c ∧ c ≤ 57)

/-- Left-to-right, non-overlapping application of
`PathQuoting._unescape_re.sub(PathQuoting.unescape_sequence, ·)`: at a
backslash, a single byte of the class made of the lowercase letters,
the double quote and the backslash is replaced through the unescape
table, else three digit bytes are read back as octal; a backslash
starting neither sequence is kept and scanning resumes at the next
byte.  `none` models the KeyError for a letter with no table entry. -/
def unescapeScan : Bytes → Option Bytes
  | [] => some []
  | b :: rest =>
    if b = 92 then
      match rest with
      | [] => some [92]
      | c :: rest1 =>
        if lowerAlpha c || c == 34 || c == 92 then
          (unescapeChar c).bind (fun v => (unescapeScan rest1).map (fun r => v :: r))
        else
          match _hr : rest1 with
          | d2 :: d3 :: rest3 =>
            if digitByte c && digitByte d2 && digitByte d3 then
              (unescapeScan rest3).map
                (fun r => (64 * (c - 48) + 8 * (d2 - 48) + (d3 - 48)) :: r)
            else (unescapeScan (c :: rest1)).map (fun r => 92 :: r)
          | _ => (unescapeScan (c :: rest1)).map (fun r => 92 :: r)
    else (unescapeScan rest).map (fun r => b :: r)
termination_by l => l.length
decreasing_by all_goals (simp_all only [List.length_cons]; omega)

/-- PathQuoting.dequote: strings starting with a double quote must also
end with one (the assert), are stripped of the surrounding quotes and
unescaped; anything else is returned unchanged. -/
def dequote (q : Bytes) : Option Bytes :=
  if q.head? = some 34 then
    if q.getLast? = some 34 then unescapeScan ((q.drop 1).dropLast)
    else none
  else some q

theorem unescapeScan_cons_plain (b : Nat) (hb : b ≠ 92) (l : Bytes) :
    unescapeScan (b :: l) = (unescapeScan l).map (fun r => b :: r) := by
  conv_lhs => rw [unescapeScan.eq_def]
  simp only [if_neg hb]

theorem unescapeScan_letter (c v : Nat) (l : Bytes)
    (hc : (lowerAlpha c || c == 34 || c == 92) = true)
    (hv : unescapeChar c = some v) :
    unescapeScan (92 :: c :: l) = (unescapeScan l).map (fun r => v :: r) := by
  conv_lhs => rw [unescapeScan.eq_def]
  simp only [if_pos rfl, hc, if_true, hv, Option.some_bind]

theorem unescapeScan_octal (c d2 d3 : Nat) (l : Bytes)
    (hc : (lowerAlpha c || c == 34 || c == 92) = false)
    (hd : (digitByte c && digitByte d2 && digitByte d3) = true) :
    unescapeScan (92 :: c :: d2 :: d3 :: l) =
      (unescapeScan l).map
        (fun r => (64 * (c - 48) + 8 * (d2 - 48) + (d3 - 48)) :: r) := by
  conv_lhs => rw [unescapeScan.eq_def]
  simp only [if_pos rfl, hc, Bool.false_eq_true, if_false, hd, if_true]

theorem unescapeScan_escapeByte (b : Nat) (hb : b < 256) (l : Bytes) :
    unescapeScan (escapeByte b ++ l) = Option.map (fun r => b :: r) (unescapeScan l) := by
  by_cases h7 : b = 7
  · subst h7; exact unescapeScan_letter 97 7 l (by decide) (by decide)
  by_cases h8 : b = 8
  · subst h8; exact unescapeScan_letter 98 8 l (by decide) (by decide)
  by_cases h12 : b = 12
  · subst h12; exact unescapeScan_letter 102 12 l (by decide) (by decide)
  by_cases h10 : b = 10
  · subst h10; exact unescapeScan_letter 110 10 l (by decide) (by decide)
  by_cases h13 : b = 13
  · subst h13; exact unescapeScan_letter 114 13 l (by decide) (by decide)
  by_cases h9 : b = 9
  · subst h9; exact unescapeScan_letter 116 9 l (by decide) (by decide)
  by_cases h11 : b = 11
  · subst h11; exact unescapeScan_letter 118 11 l (by decide) (by decide)
  by_cases h34 : b = 34
  · subst h34; exact unescapeScan_letter 34 34 l (by decide) (by decide)
  by_cases h92 : b = 92
  · subst h92; exact unescapeScan_letter 92 92 l (by decide) (by decide)
  by_cases hlt : b < 127
  · have he : escapeByte b = [b] := by
      unfold escapeByte
      simp [h7, h8, h12, h10, h13, h9, h11, h34, h92, hlt]
    rw [he]
    exact unescapeScan_cons_plain b h92 l
  · have hge : 127 ≤ b := by omega
    have he : escapeByte b = [92, 48 + b / 64, 48 + (b / 8) % 8, 48 + b % 8] := by
      unfold escapeByte
      simp [h7, h8, h12, h10, h13, h9, h11, h34, h92, hlt]
    rw [he]
    have hd1 : 49 ≤ 48 + b / 64 ∧ 48 + b / 64 ≤ 51 := by omega
    have hrw := unescapeScan_octal (48 + b / 64) (48 + (b / 8) % 8) (48 + b % 8) l
      (by simp [lowerAlpha]; omega)
      (by simp [digitByte]; omega)
    simp only [List.cons_append, List.nil_append] at hrw ⊢
    rw [hrw]
    have hval : 64 * (48 + b / 64 - 48) + 8 * (48 + (b / 8) % 8 - 48) + (48 + b % 8 - 48) = b := by
      omega
    rw [hval]

theorem unescapeScan_escape_flatten (p : Bytes) (hp : ∀ b ∈ p, b < 256) :
    unescapeScan (p.map escapeByte).flatten = some p := by
  induction p with
  | nil => simp only [List.map_nil, List.flatten_nil]; rw [unescapeScan]
  | cons b rest ih =>
      have hb : b < 256 := hp b (List.mem_cons_self b rest)
      have hrest : ∀ x ∈ rest, x < 256 := fun x hx => hp x (List.mem_cons_of_mem b hx)
      simp only [List.map_cons, List.flatten_cons]
      rw [unescapeScan_escapeByte b hb, ih hrest]
      rfl

/-- C8: the path-quoting round trip.  `enquote` quotes (and escapes)
exactly when the path starts with a double quote or contains a newline,
and `dequote` inverts it on every byte string. -/
theorem dequote_enquote_roundtrip (p : Bytes) (hp : ∀ b ∈ p, b < 256) :
    dequote (enquote p) = some p := by
  unfold enquote
  by_cases hq : p.head? = some 34 ∨ 10 ∈ p
  · rw [if_pos hq]
    unfold dequote
    have hhead : (34 :: (p.map escapeByte).flatten ++ [34] : Bytes).head? = some 34 := rfl
    have hlist : (34 :: (p.map escapeByte).flatten ++ [34] : Bytes)
        = (34 :: (p.map escapeByte).flatten) ++ [34] := by simp
    have hlast : (34 :: (p.map escapeByte).flatten ++ [34] : Bytes).getLast? = some 34 := by
      rw [hlist, List.getLast?_concat]
    rw [if_pos hhead, if_pos hlast]
    have hdrop : ((34 :: (p.map escapeByte).flatten ++ [34] : Bytes).drop 1).dropLast
        = (p.map escapeByte).flatten := by
      simp
    rw [hdrop]
    exact unescapeScan_escape_flatten p hp
  · rw [if_neg hq]
    unfold dequote
    have : p.head? ≠ some 34 := fun h => hq (Or.inl h)
    rw [if_neg this]

/-- Witness for C8 at a path that needs quoting (it starts with a
double quote and contains a newline, a backslash and a high byte). -/
theorem dequote_enquote_roundtrip_witness :
    (∀ b ∈ ([34, 10, 92, 200, 65] : Bytes), b < 256) ∧
      dequote (enquote [34, 10, 92, 200, 65]) = some [34, 10, 92, 200, 65] :=
  ⟨by decide, dequote_enquote_roundtrip [34, 10, 92, 200, 65] (by decide)⟩

/-! ## ids.py -/

/-- State of `_IDs`: the next fresh mark, the forward translation map
and the reverse map from a new id to every old id pointing at it. -/
structure IDsState where
  next_id : Nat
  translation : List (Nat × Nat)
  reverse_translation : List (Nat × List Nat)
deriving DecidableEq, Repr

/-- Fresh `_IDs` state created by `_IDs.__init__`. -/
def initIDs : IDsState := { next_id := 1, translation := [], reverse_translation := [] }

/-- _IDs.new: return the next id and bump the counter. -/
def idsNew (s : IDsState) : Nat × IDsState :=
  (s.next_id, { s with next_id := s.next_id + 1 })

/-- _IDs.record_rename: record `old_id -> new_id`; with transitivity,
redirect every id previously pointing at `old_id`; finally append
`old_id` to the reverse entry of `new_id`. -/
def recordRename (old_id new_id : Nat) (handle_transitivity : Bool) (s : IDsState) :
    IDsState :=
  if old_id ≠ new_id then
    let t1 := ainsert s.translation old_id new_id
    let t2 :=
      if handle_transitivity then
        match alookup s.reverse_translation old_id with
        | some ids => ids.foldl (fun t i => ainsert t i new_id) t1
        | none => t1
      else t1
    let rev :=
      match alookup s.reverse_translation new_id with
      | some l => ainsert s.reverse_translation new_id (l ++ [old_id])
      | none => ainsert s.reverse_translation new_id [old_id]
    { s with translation := t2, reverse_translation := rev }
  else s

/-- _IDs.translate: translated id, or the identity if unmapped. -/
def translate (s : IDsState) (old_id : Nat) : Nat :=
  (alookup s.translation old_id).getD old_id

/-- One operation on the mark table: an allocation or a transitive
rename, as performed through `record_id_rename`. -/
inductive IDOp
  | newOp : IDOp
  | rename : Nat → Nat → IDOp
deriving DecidableEq, Repr

/-- Apply one mark-table operation (renames use the transitive flag,
as `record_id_rename` does). -/
def applyIDOp (s : IDsState) : IDOp → IDsState
  | .newOp => (idsNew s).2
  | .rename old_id new_id => recordRename old_id new_id true s

/-- Apply a sequence of mark-table operations. -/
def applyIDOps (ops : List IDOp) (s : IDsState) : IDsState :=
  ops.foldl applyIDOp s

/-- Old ids of the renames of an operation sequence. -/
def renameOlds (ops : List IDOp) : List Nat :=
  ops.filterMap (fun op => match op with | .rename o _ => some o | .newOp => none)

/-- New ids of the renames of an operation sequence. -/
def renameNews (ops : List IDOp) : List Nat :=
  ops.filterMap (fun op => match op with | .rename _ n => some n | .newOp => none)

/-- C3 counterexample: after `record_rename(2, 3, transitive)` followed
by `record_rename(1, 2, transitive)`, mark 1 translates to 2 but 2
translates on to 3, so the forward translation is not idempotent. -/
theorem translate_not_idempotent :
    ¬ translate (applyIDOps [.rename 2 3, .rename 1 2] initIDs)
        (translate (applyIDOps [.rename 2 3, .rename 1 2] initIDs) 1)
      = translate (applyIDOps [.rename 2 3, .rename 1 2] initIDs) 1 := by
  decide

/-- Forward/reverse bookkeeping relative to old-id pool `O` and new-id
pool `N`: every forward binding maps an id of `O` to an id of `N`, and
every reverse entry lists only ids of `O`. -/
def IDsPools (O N : List Nat) (s : IDsState) : Prop :=
  (∀ k v, alookup s.translation k = some v → k ∈ O ∧ v ∈ N) ∧
  (∀ k l, alookup s.reverse_translation k = some l → ∀ i ∈ l, i ∈ O)

theorem alookup_foldl_ainsert {O N : List Nat} (n : Nat) (hnN : n ∈ N)
    (ids : List Nat) (t : List (Nat × Nat))
    (ht : ∀ k v, alookup t k = some v → k ∈ O ∧ v ∈ N)
    (hids : ∀ i ∈ ids, i ∈ O) :
    ∀ k v, alookup (ids.foldl (fun t i => ainsert t i n) t) k = some v →
      k ∈ O ∧ v ∈ N := by
  induction ids generalizing t with
  | nil => exact ht
  | cons i rest ihl =>
      intro k v hkv
      refine ihl (ainsert t i n) ?_ (fun j hj => hids j (List.mem_cons_of_mem i hj)) k v hkv
      intro k' v' hk'
      by_cases hk'i : k' = i
      · subst hk'i
        rw [alookup_ainsert_self] at hk'
        injection hk' with h'
        exact ⟨hids k' (List.mem_cons_self k' rest), h' ▸ hnN⟩
      · rw [alookup_ainsert_ne _ _ _ _ hk'i] at hk'
        exact ht k' v' hk'

theorem idsPools_applyIDOp {O N : List Nat} {s : IDsState} (h : IDsPools O N s)
    (op : IDOp) (hop : ∀ o n, op = .rename o n → o ∈ O ∧ n ∈ N) :
    IDsPools O N (applyIDOp s op) := by
  obtain ⟨hfwd, hrev⟩ := h
  cases op with
  | newOp => exact ⟨hfwd, hrev⟩
  | rename o n =>
      obtain ⟨hoO, hnN⟩ := hop o n rfl
      show IDsPools O N (recordRename o n true s)
      by_cases hne : o ≠ n
      · have hbase : ∀ k v, alookup (ainsert s.translation o n) k = some v →
            k ∈ O ∧ v ∈ N := by
          intro k' v' hk'
          by_cases hk'o : k' = o
          · subst hk'o
            rw [alookup_ainsert_self] at hk'
            injection hk' with h'
            exact ⟨hoO, h' ▸ hnN⟩
          · rw [alookup_ainsert_ne _ _ _ _ hk'o] at hk'
            exact hfwd k' v' hk'
        have hfwd2 : ∀ t2, (∀ k v, alookup t2 k = some v → k ∈ O ∧ v ∈ N) →
            ∀ rev, (∀ k l, alookup rev k = some l → ∀ i ∈ l, i ∈ O) →
            IDsPools O N { s with translation := t2, reverse_translation := rev } :=
          fun _ h2 _ h3 => ⟨h2, h3⟩
        have hrevpool : ∀ k l,
            alookup
              (match alookup s.reverse_translation n with
                | some l0 => ainsert s.reverse_translation n (l0 ++ [o])
                | none => ainsert s.reverse_translation n [o]) k = some l →
            ∀ i ∈ l, i ∈ O := by
          cases hrw : alookup s.reverse_translation n with
          | none =>
              intro k l hk
              by_cases hkn : k = n
              · subst hkn
                rw [alookup_ainsert_self] at hk
                injection hk with h'
                intro i hi
                rw [← h'] at hi
                have : i = o := by simpa using hi
                exact this ▸ hoO
              · rw [alookup_ainsert_ne _ _ _ _ hkn] at hk
                exact hrev k l hk
          | some l0 =>
              intro k l hk
              by_cases hkn : k = n
              · subst hkn
                rw [alookup_ainsert_self] at hk
                injection hk with h'
                intro i hi
                rw [← h'] at hi
                rcases List.mem_append.mp hi with h0 | h0
                · exact hrev _ l0 hrw i h0
                · have : i = o := by simpa using h0
                  exact this ▸ hoO
              · rw [alookup_ainsert_ne _ _ _ _ hkn] at hk
                exact hrev k l hk
        cases hrw : alookup s.reverse_translation o with
        | none =>
            simp only [recordRename, if_pos hne, if_pos rfl, hrw]
            exact hfwd2 _ hbase _ hrevpool
        | some ids =>
            simp only [recordRename, if_pos hne, if_pos rfl, hrw]
            exact hfwd2 _
              (alookup_foldl_ainsert n hnN ids _ hbase (fun i hi => hrev o ids hrw i hi))
              _ hrevpool
      · simp only [recordRename, if_neg hne]
        exact ⟨hfwd, hrev⟩

theorem idsPools_applyIDOps {O N : List Nat} (ops : List IDOp) {s : IDsState}
    (h : IDsPools O N s)
    (hops : ∀ op ∈ ops, ∀ o n, op = IDOp.rename o n → o ∈ O ∧ n ∈ N) :
    IDsPools O N (applyIDOps ops s) := by
  induction ops generalizing s with
  | nil => exact h
  | cons op rest ih =>
      exact ih (idsPools_applyIDOp h op (hops op (.head _)))
        (fun op' hop' => hops op' (.tail _ hop'))

/-- C3 amended: the forward translation is idempotent after any
sequence of allocations and transitive renames in which no mark is
used both as the old id of one rename and as the new id of another. -/
theorem translate_idempotent_of_disjoint (ops : List IDOp)
    (hdisj : ∀ m ∈ renameOlds ops, m ∉ renameNews ops) (x : Nat) :
    translate (applyIDOps ops initIDs) (translate (applyIDOps ops initIDs) x)
      = translate (applyIDOps ops initIDs) x := by
  have hpools : IDsPools (renameOlds ops) (renameNews ops) (applyIDOps ops initIDs) := by
    refine idsPools_applyIDOps ops ⟨?_, ?_⟩ ?_
    · intro k v hk; simp [alookup] at hk
    · intro k l hk; simp [alookup] at hk
    · intro op hop o n hrn
      subst hrn
      constructor
      · exact List.mem_filterMap.mpr ⟨_, hop, rfl⟩
      · exact List.mem_filterMap.mpr ⟨_, hop, rfl⟩
  obtain ⟨hfwd, _⟩ := hpools
  unfold translate
  cases hx : alookup (applyIDOps ops initIDs).translation x with
  | none => simp [hx]
  | some v =>
      have hv : v ∈ renameNews ops := (hfwd x v hx).2
      have hvdom : alookup (applyIDOps ops initIDs).translation v = none := by
        cases hv' : alookup (applyIDOps ops initIDs).translation v with
        | none => rfl
        | some w => exact absurd hv (hdisj v (hfwd v w hv').1)
      simp [hx, hvdom]

/-- Witness for the amended C3 on a rename sequence with disjoint old
and new marks. -/
theorem translate_idempotent_witness :
    (∀ m ∈ renameOlds [IDOp.rename 1 5, IDOp.newOp, IDOp.rename 2 5, IDOp.rename 3 6],
        m ∉ renameNews [IDOp.rename 1 5, IDOp.newOp, IDOp.rename 2 5, IDOp.rename 3 6]) ∧
      translate (applyIDOps [IDOp.rename 1 5, IDOp.newOp, IDOp.rename 2 5, IDOp.rename 3 6] initIDs)
          (translate (applyIDOps [IDOp.rename 1 5, IDOp.newOp, IDOp.rename 2 5, IDOp.rename 3 6] initIDs) 1)
        = translate (applyIDOps [IDOp.rename 1 5, IDOp.newOp, IDOp.rename 2 5, IDOp.rename 3 6] initIDs) 1 :=
  ⟨by decide,
    translate_idempotent_of_disjoint
      [IDOp.rename 1 5, IDOp.newOp, IDOp.rename 2 5, IDOp.rename 3 6] (by decide) 1⟩

/-! ## ancestrygraph.py -/

/-- Graph entry of `AncestryGraph.graph`: depth and internal parent ids. -/
abbrev GraphEntry := Nat × List Nat

/-- AncestryGraph state: the id counter, the map from external
identifiers to internal integers, and the internal graph.  External
identifiers (marks or textual ids) are drawn from `Nat`. -/
structure AncestryGraph where
  cur_value : Nat
  value : List (Nat × Nat)
  graph : List (Nat × GraphEntry)
deriving DecidableEq, Repr

/-- Fresh state built by `AncestryGraph.__init__`. -/
def emptyAncestryGraph : AncestryGraph := ⟨0, [], []⟩

/-- Loop body of `AncestryGraph.record_external_commits`: a commit not
yet in `value` gets a fresh internal id and a root entry of depth 1
with no parents. -/
def recordExternalCommit (g : AncestryGraph) (c : Nat) : AncestryGraph :=
  match alookup g.value c with
  | some _ => g
  | none =>
      { cur_value := g.cur_value + 1,
        value := ainsert g.value c (g.cur_value + 1),
        graph := ainsert g.graph (g.cur_value + 1) (1, []) }

/-- AncestryGraph.record_external_commits: record every listed commit
as a root. -/
def recordExternalCommits (g : AncestryGraph) (external_commits : List Nat) :
    AncestryGraph :=
  external_commits.foldl recordExternalCommit g

/-- AncestryGraph.add_commit_and_parents: the asserts (all parents
recorded, commit unrecorded) yield `none` on violation; the commit gets
a fresh internal id and depth one more than the maximal parent depth
(depth 1 when there are no parents).  Each recorded value has a graph
entry, so the lookup default is never reached from the public API. -/
def addCommitAndParents (g : AncestryGraph) (commit : Nat) (parents : List Nat) :
    Option AncestryGraph :=
  if (parents.all fun p => (alookup g.value p).isSome) ∧ alookup g.value commit = none then
    let graph_parents := parents.map (fun p => (alookup g.value p).getD 0)
    let parent_depths := graph_parents.map (fun p => ((alookup g.graph p).getD (0, [])).1)
    let depth := if parents.isEmpty then 1 else 1 + parent_depths.foldr max 0
    some { cur_value := g.cur_value + 1,
           value := ainsert g.value commit (g.cur_value + 1),
           graph := ainsert g.graph (g.cur_value + 1) (depth, graph_parents) }
  else none

theorem mem_keys_of_alookup {α β : Type} [DecidableEq α] {l : List (α × β)} {k : α}
    {v : β} (h : alookup l k = some v) : k ∈ l.map Prod.fst := by
  induction l with
  | nil => simp [alookup] at h
  | cons hd tl ih =>
      obtain ⟨k0, v0⟩ := hd
      by_cases hk : k = k0
      · subst hk; simp
      · simp only [alookup, if_neg hk] at h
        simpa using Or.inr (ih h)

theorem length_filter_not_mem_le (s : Nat) (visited l : List Nat) :
    (l.filter (fun k => decide (k ∉ s :: visited))).length ≤
      (l.filter (fun k => decide (k ∉ visited))).length := by
  induction l with
  | nil => simp
  | cons x xs ih =>
      by_cases hx : x ∈ s :: visited
      · have hx2 : decide (x ∉ s :: visited) = false := by
          rcases List.mem_cons.mp hx with h | h
          · subst h; simp
          · simp [h]
        by_cases hx3 : x ∈ visited
        · have : decide (x ∉ visited) = false := by simpa using hx3
          simpa [List.filter, hx2, this] using ih
        · have : decide (x ∉ visited) = true := by simpa using hx3
          simp only [List.filter, hx2, this, List.length_cons]
          omega
      · have hx2 : decide (x ∉ s :: visited) = true := by simpa using hx
        have hx3 : x ∉ visited := fun hc => hx (List.mem_cons_of_mem s hc)
        have : decide (x ∉ visited) = true := by simpa using hx3
        simp only [List.filter, hx2, this, List.length_cons]
        omega

theorem length_filter_not_mem_lt {s : Nat} {l : List Nat} (visited : List Nat)
    (hs : s ∈ l) (hv : s ∉ visited) :
    (l.filter (fun k => decide (k ∉ s :: visited))).length <
      (l.filter (fun k => decide (k ∉ visited))).length := by
  induction l with
  | nil => simp at hs
  | cons x xs ih =>
      by_cases hxs : x = s
      · subst hxs
        have h1 : decide (x ∉ x :: visited) = false := by simp
        have h2 : decide (x ∉ visited) = true := by simpa using hv
        simp only [List.filter, h1, h2, List.length_cons]
        exact Nat.lt_succ_of_le (length_filter_not_mem_le x visited xs)
      · have hs' : s ∈ xs := by
          rcases List.mem_cons.mp hs with h | h
          · exact absurd h.symm hxs
          · exact h
        by_cases hx : x ∈ visited
        · have h1 : decide (x ∉ s :: visited) = false := by
            simp [List.mem_cons, hx]
          have h2 : decide (x ∉ visited) = false := by simpa using hx
          simpa [List.filter, h1, h2] using ih hs'
        · have h1 : decide (x ∉ s :: visited) = true := by
            have : x ∉ s :: visited := by
              intro hc
              rcases List.mem_cons.mp hc with h | h
              · exact hxs h
              · exact hx h
            simpa using this
          have h2 : decide (x ∉ visited) = true := by simpa using hx
          simp only [List.filter, h1, h2, List.length_cons]
          exact Nat.succ_lt_succ (ih hs')

/-- Inner DFS loop of `AncestryGraph.is_ancestor` over the internal
graph.  The stack keeps the most recently pushed node first (the
reverse of the Python list, which pops from the end and extends at the
end), so the Python `extend` becomes prepending the reversed parent
list.  `none` models a KeyError for a node missing from the graph. -/
def isAncestorLoop (gr : List (Nat × GraphEntry)) (a a_depth : Nat) :
    List Nat → List Nat → Option Bool
  | [], _ => some false
  | ancestor :: stack, visited =>
    if ancestor ∈ visited then isAncestorLoop gr a a_depth stack visited
    else
      match halook : alookup gr ancestor with
      | none => none
      | some (depth, more_ancestors) =>
          if ancestor = a then some true
          else if depth ≤ a_depth then
            isAncestorLoop gr a a_depth stack (ancestor :: visited)
          else
            isAncestorLoop gr a a_depth (more_ancestors.reverse ++ stack)
              (ancestor :: visited)
termination_by stack visited =>
  (((gr.map Prod.fst).filter (fun k => decide (k ∉ visited))).length, stack.length)
decreasing_by
  · exact Prod.Lex.right _ (Nat.lt_succ_self _)
  · exact Prod.Lex.left _ _
      (length_filter_not_mem_lt visited (mem_keys_of_alookup halook) (by assumption))
  · exact Prod.Lex.left _ _
      (length_filter_not_mem_lt visited (mem_keys_of_alookup halook) (by assumption))

/-- AncestryGraph.is_ancestor: translate both external ids, look up the
depth of the candidate ancestor, and run the DFS from `check`; `none`
models a KeyError on an unrecorded id. -/
def is_ancestor (g : AncestryGraph) (possible_ancestor check : Nat) : Option Bool := do
  let a ← alookup g.value possible_ancestor
  let b ← alookup g.value check
  let e ← alookup g.graph a
  isAncestorLoop g.graph a e.1 [b] []

/-- One public operation on an ancestry graph. -/
inductive AGOp
  | external : List Nat → AGOp
  | addCommit : Nat → List Nat → AGOp
deriving DecidableEq, Repr

/-- Apply one ancestry-graph operation. -/
def applyAGOp (g : AncestryGraph) : AGOp → Option AncestryGraph
  | .external cs => some (recordExternalCommits g cs)
  | .addCommit c ps => addCommitAndParents g c ps

/-- Apply a sequence of ancestry-graph operations. -/
def applyAGOps : List AGOp → AncestryGraph → Option AncestryGraph
  | [], g => some g
  | op :: rest, g => (applyAGOp g op).bind (applyAGOps rest)

/-- Ancestor-or-equal relation of the internal graph: `Ancestor gr a b`
holds when a chain of parent edges leads from `b` down to `a`. -/
inductive Ancestor (gr : List (Nat × GraphEntry)) : Nat → Nat → Prop where
  | refl (x : Nat) : Ancestor gr x x
  | step {a c d p : Nat} {ps : List Nat}
      (hc : alookup gr c = some (d, ps)) (hp : p ∈ ps) (h : Ancestor gr a p) :
      Ancestor gr a c

/-- Class invariant of ancestry graphs reachable from the public API:
internal ids are positive and bounded by the counter, every recorded
value has a graph entry, and every graph entry's depth is one more than
the maximal depth of its parents (zero maximum when there are none),
with all parents present in the graph. -/
structure AGInv (g : AncestryGraph) : Prop where
  value_le : ∀ c v, alookup g.value c = some v → 1 ≤ v ∧ v ≤ g.cur_value
  graph_le : ∀ k e, alookup g.graph k = some e → 1 ≤ k ∧ k ≤ g.cur_value
  value_graph : ∀ c v, alookup g.value c = some v → ∃ e, alookup g.graph v = some e
  depth_formula : ∀ k d ps, alookup g.graph k = some (d, ps) →
    (∀ p ∈ ps, ∃ e, alookup g.graph p = some e) ∧
    d = 1 + ((ps.map fun p => ((alookup g.graph p).getD (0, [])).1).foldr max 0)

/-- Old bindings and entries survive into a later graph state. -/
def Persists (g g2 : AncestryGraph) : Prop :=
  (∀ c v, alookup g.value c = some v → alookup g2.value c = some v) ∧
  (∀ k e, alookup g.graph k = some e → alookup g2.graph k = some e) ∧
  g.cur_value ≤ g2.cur_value

theorem persists_refl (g : AncestryGraph) : Persists g g :=
  ⟨fun _ _ h => h, fun _ _ h => h, le_refl _⟩

theorem persists_trans {g1 g2 g3 : AncestryGraph} (h12 : Persists g1 g2)
    (h23 : Persists g2 g3) : Persists g1 g3 :=
  ⟨fun c v h => h23.1 c v (h12.1 c v h),
   fun k e h => h23.2.1 k e (h12.2.1 k e h),
   le_trans h12.2.2 h23.2.2⟩

theorem agInv_insert {g : AncestryGraph} (h : AGInv g) (key d : Nat) (ps : List Nat)
    (hkey : alookup g.value key = none)
    (hps : ∀ p ∈ ps, ∃ e, alookup g.graph p = some e)
    (hd : d = 1 + ((ps.map fun p => ((alookup g.graph p).getD (0, [])).1).foldr max 0)) :
    AGInv { cur_value := g.cur_value + 1,
            value := ainsert g.value key (g.cur_value + 1),
            graph := ainsert g.graph (g.cur_value + 1) (d, ps) } ∧
    Persists g { cur_value := g.cur_value + 1,
                 value := ainsert g.value key (g.cur_value + 1),
                 graph := ainsert g.graph (g.cur_value + 1) (d, ps) } := by
  have hvpersist : ∀ c v, alookup g.value c = some v →
      alookup (ainsert g.value key (g.cur_value + 1)) c = some v := by
    intro c v hc
    have hck : c ≠ key := by
      intro hck; subst hck; rw [hc] at hkey; exact Option.noConfusion hkey
    rw [alookup_ainsert_ne _ _ _ _ hck]; exact hc
  have hgpersist : ∀ k e, alookup g.graph k = some e →
      alookup (ainsert g.graph (g.cur_value + 1) (d, ps)) k = some e := by
    intro k e hk
    have hkk : k ≠ g.cur_value + 1 := by
      intro hkk
      have := (h.graph_le k e hk).2
      omega
    rw [alookup_ainsert_ne _ _ _ _ hkk]; exact hk
  have hglookup : ∀ p e, alookup g.graph p = some e →
      alookup (ainsert g.graph (g.cur_value + 1) (d, ps)) p = alookup g.graph p := by
    intro p e hp
    have hpk : p ≠ g.cur_value + 1 := by
      intro hpk
      have := (h.graph_le p e hp).2
      omega
    rw [alookup_ainsert_ne _ _ _ _ hpk]
  refine ⟨⟨?_, ?_, ?_, ?_⟩, hvpersist, hgpersist, Nat.le_succ _⟩
  · -- value_le
    intro c v hc
    by_cases hck : c = key
    · subst hck
      rw [alookup_ainsert_self] at hc
      injection hc with h'
      dsimp only
      omega
    · rw [alookup_ainsert_ne _ _ _ _ hck] at hc
      have := h.value_le c v hc
      dsimp only
      omega
  · -- graph_le
    intro k e hk
    by_cases hkk : k = g.cur_value + 1
    · subst hkk
      dsimp only
      omega
    · rw [alookup_ainsert_ne _ _ _ _ hkk] at hk
      have := h.graph_le k e hk
      dsimp only
      omega
  · -- value_graph
    intro c v hc
    by_cases hck : c = key
    · subst hck
      rw [alookup_ainsert_self] at hc
      injection hc with h'
      subst h'
      exact ⟨(d, ps), alookup_ainsert_self _ _ _⟩
    · rw [alookup_ainsert_ne _ _ _ _ hck] at hc
      obtain ⟨e, he⟩ := h.value_graph c v hc
      exact ⟨e, hgpersist v e he⟩
  · -- depth_formula
    intro k d' ps' hk
    have hsame : ∀ q, (∃ e0, alookup g.graph q = some e0) →
        ((alookup (ainsert g.graph (g.cur_value + 1) (d, ps)) q).getD (0, [])).1
          = ((alookup g.graph q).getD (0, [])).1 := by
      rintro q ⟨e0, he0⟩
      rw [hglookup q e0 he0]
    by_cases hkk : k = g.cur_value + 1
    · subst hkk
      rw [alookup_ainsert_self] at hk
      injection hk with h'
      injection h' with h1 h2
      subst h1; subst h2
      constructor
      · intro p hp
        obtain ⟨e, he⟩ := hps p hp
        exact ⟨e, hgpersist p e he⟩
      · dsimp only
        rw [List.map_congr_left (fun q hq => hsame q (hps q hq))]
        exact hd
    · rw [alookup_ainsert_ne _ _ _ _ hkk] at hk
      obtain ⟨hex, hform⟩ := h.depth_formula k d' ps' hk
      constructor
      · intro p hp
        obtain ⟨e, he⟩ := hex p hp
        exact ⟨e, hgpersist p e he⟩
      · dsimp only
        rw [List.map_congr_left (fun q hq => hsame q (hex q hq))]
        exact hform

theorem agInv_empty : AGInv emptyAncestryGraph := by
  constructor <;> intros <;> simp_all [alookup, emptyAncestryGraph]

theorem agInv_recordExternalCommit {g : AncestryGraph} (h : AGInv g) (c : Nat) :
    AGInv (recordExternalCommit g c) ∧ Persists g (recordExternalCommit g c) := by
  unfold recordExternalCommit
  cases hc : alookup g.value c with
  | some v => exact ⟨h, persists_refl g⟩
  | none =>
      exact agInv_insert h c 1 [] hc (by intro p hp; simp at hp) (by simp)

theorem agInv_recordExternalCommits {g : AncestryGraph} (h : AGInv g) (cs : List Nat) :
    AGInv (recordExternalCommits g cs) ∧ Persists g (recordExternalCommits g cs) := by
  induction cs generalizing g with
  | nil => exact ⟨h, persists_refl g⟩
  | cons c rest ih =>
      obtain ⟨h1, hp1⟩ := agInv_recordExternalCommit h c
      obtain ⟨h2, hp2⟩ := ih h1
      exact ⟨h2, persists_trans hp1 hp2⟩

theorem agInv_addCommitAndParents {g g2 : AncestryGraph} (h : AGInv g)
    {commit : Nat} {parents : List Nat}
    (hadd : addCommitAndParents g commit parents = some g2) :
    AGInv g2 ∧ Persists g g2 := by
  unfold addCommitAndParents at hadd
  by_cases hcond : (parents.all fun p => (alookup g.value p).isSome) = true ∧
      alookup g.value commit = none
  · rw [if_pos hcond] at hadd
    injection hadd with h2
    subst h2
    refine agInv_insert h commit _ _ hcond.2 ?_ ?_
    · intro p hp
      obtain ⟨p0, hp0, hpeq⟩ := List.mem_map.mp hp
      have hall := List.all_eq_true.mp hcond.1 p0 hp0
      cases hv : alookup g.value p0 with
      | none => rw [hv] at hall; simp at hall
      | some v =>
          have hpv : p = v := by rw [← hpeq, hv]; rfl
          rw [hpv]
          exact h.value_graph p0 v hv
    · by_cases hpe : parents.isEmpty
      · have : parents = [] := List.isEmpty_iff.mp hpe
        subst this
        simp
      · simp only [Bool.not_eq_true] at hpe
        simp [hpe]
  · rw [if_neg hcond] at hadd
    exact Option.noConfusion hadd

theorem agInv_applyAGOp {g g2 : AncestryGraph} (h : AGInv g) {op : AGOp}
    (happ : applyAGOp g op = some g2) : AGInv g2 ∧ Persists g g2 := by
  cases op with
  | external cs =>
      injection happ with h2
      subst h2
      exact agInv_recordExternalCommits h cs
  | addCommit c ps => exact agInv_addCommitAndParents h happ

theorem agInv_applyAGOps {g g2 : AncestryGraph} (ops : List AGOp) (h : AGInv g)
    (happ : applyAGOps ops g = some g2) : AGInv g2 ∧ Persists g g2 := by
  induction ops generalizing g with
  | nil =>
      injection happ with h2
      subst h2
      exact ⟨h, persists_refl g⟩
  | cons op rest ih =>
      simp only [applyAGOps] at happ
      cases h1 : applyAGOp g op with
      | none => rw [h1] at happ; exact Option.noConfusion happ
      | some gmid =>
          rw [h1] at happ
          simp only [Option.some_bind] at happ
          obtain ⟨hmid, hpmid⟩ := agInv_applyAGOp h h1
          obtain ⟨hfin, hpfin⟩ := ih hmid happ
          exact ⟨hfin, persists_trans hpmid hpfin⟩

theorem le_foldr_max {x : Nat} {l : List Nat} (hx : x ∈ l) : x ≤ l.foldr max 0 := by
  induction l with
  | nil => simp at hx
  | cons y ys ih =>
      rcases List.mem_cons.mp hx with h | h
      · subst h; exact Nat.le_max_left _ _
      · exact le_trans (ih h) (Nat.le_max_right _ _)

/-- Parent edges strictly decrease the recorded depth. -/
def GraphWF (gr : List (Nat × GraphEntry)) : Prop :=
  ∀ k d ps, alookup gr k = some (d, ps) →
    ∀ p ∈ ps, ∃ d2 ps2, alookup gr p = some (d2, ps2) ∧ d2 < d

theorem graphWF_of_agInv {g : AncestryGraph} (h : AGInv g) : GraphWF g.graph := by
  intro k d ps hk p hp
  obtain ⟨hex, hform⟩ := h.depth_formula k d ps hk
  obtain ⟨⟨d2, ps2⟩, he⟩ := hex p hp
  refine ⟨d2, ps2, he, ?_⟩
  have hmem : d2 ∈ ps.map fun q => ((alookup g.graph q).getD (0, [])).1 :=
    List.mem_map.mpr ⟨p, hp, by rw [he]; rfl⟩
  have := le_foldr_max hmem
  omega

theorem ancestor_lookup {gr : List (Nat × GraphEntry)} (hwf : GraphWF gr)
    {a b : Nat} (h : Ancestor gr a b) (hb : ∃ e, alookup gr b = some e) :
    ∃ e, alookup gr a = some e := by
  induction h with
  | refl => exact hb
  | step hc hp _hsub ih =>
      obtain ⟨d2, ps2, hp2, _⟩ := hwf _ _ _ hc _ hp
      exact ih ⟨(d2, ps2), hp2⟩

theorem ancestor_depth_lt {gr : List (Nat × GraphEntry)} (hwf : GraphWF gr)
    {a b : Nat} (h : Ancestor gr a b) :
    a ≠ b → ∀ da psa db psb, alookup gr a = some (da, psa) →
      alookup gr b = some (db, psb) → da < db := by
  induction h with
  | refl => intro hne; exact absurd rfl hne
  | @step c d p ps hc hp _hsub ih =>
      intro hne da psa db psb ha hb
      have hdb : db = d := by
        rw [hc] at hb
        injection hb with h'
        injection h' with h1 h2
        exact h1.symm
      subst hdb
      obtain ⟨d2, ps2, hp2, hd2⟩ := hwf _ _ _ hc _ hp
      by_cases hap : a = p
      · subst hap
        rw [hp2] at ha
        injection ha with h'
        injection h' with h1 h2
        omega
      · have := ih hap da psa d2 ps2 ha hp2
        omega

/-- Inversion for a strict ancestor: the chain must leave through a
parent of the upper end. -/
theorem ancestor_inv {gr : List (Nat × GraphEntry)} {a c : Nat}
    (h : Ancestor gr a c) (hne : c ≠ a) :
    ∃ d ps p, alookup gr c = some (d, ps) ∧ p ∈ ps ∧ Ancestor gr a p := by
  cases h with
  | refl => exact absurd rfl hne
  | step hc hp hsub => exact ⟨_, _, _, hc, hp, hsub⟩

theorem isAncestorLoop_visited {gr : List (Nat × GraphEntry)} {a a_depth : Nat}
    {ancestor : Nat} {stack visited : List Nat} (h : ancestor ∈ visited) :
    isAncestorLoop gr a a_depth (ancestor :: stack) visited
      = isAncestorLoop gr a a_depth stack visited := by
  conv_lhs => rw [isAncestorLoop.eq_def]
  simp only [if_pos h]

theorem isAncestorLoop_keyerror {gr : List (Nat × GraphEntry)} {a a_depth : Nat}
    {ancestor : Nat} {stack visited : List Nat} (h : ancestor ∉ visited)
    (hl : alookup gr ancestor = none) :
    isAncestorLoop gr a a_depth (ancestor :: stack) visited = none := by
  conv_lhs => rw [isAncestorLoop.eq_def]
  simp only [if_neg h]
  split
  · rfl
  · rename_i d2 m2 heq2
    rw [hl] at heq2
    exact Option.noConfusion heq2

theorem isAncestorLoop_found {gr : List (Nat × GraphEntry)} {a a_depth : Nat}
    {ancestor depth : Nat} {more : List Nat} {stack visited : List Nat}
    (h : ancestor ∉ visited) (hl : alookup gr ancestor = some (depth, more))
    (heq : ancestor = a) :
    isAncestorLoop gr a a_depth (ancestor :: stack) visited = some true := by
  conv_lhs => rw [isAncestorLoop.eq_def]
  simp only [if_neg h]
  split
  · rename_i heq2
    rw [hl] at heq2
    exact Option.noConfusion heq2
  · rename_i d2 m2 heq2
    rw [if_pos heq]

theorem isAncestorLoop_shallow {gr : List (Nat × GraphEntry)} {a a_depth : Nat}
    {ancestor depth : Nat} {more : List Nat} {stack visited : List Nat}
    (h : ancestor ∉ visited) (hl : alookup gr ancestor = some (depth, more))
    (hne : ancestor ≠ a) (hd : depth ≤ a_depth) :
    isAncestorLoop gr a a_depth (ancestor :: stack) visited
      = isAncestorLoop gr a a_depth stack (ancestor :: visited) := by
  conv_lhs => rw [isAncestorLoop.eq_def]
  simp only [if_neg h]
  split
  · rename_i heq2
    rw [hl] at heq2
    exact Option.noConfusion heq2
  · rename_i d2 m2 heq2
    rw [hl] at heq2
    injection heq2 with heq3
    injection heq3 with hd1 hm1
    subst hd1
    subst hm1
    rw [if_neg hne, if_pos hd]

theorem isAncestorLoop_deep {gr : List (Nat × GraphEntry)} {a a_depth : Nat}
    {ancestor depth : Nat} {more : List Nat} {stack visited : List Nat}
    (h : ancestor ∉ visited) (hl : alookup gr ancestor = some (depth, more))
    (hne : ancestor ≠ a) (hd : ¬ depth ≤ a_depth) :
    isAncestorLoop gr a a_depth (ancestor :: stack) visited
      = isAncestorLoop gr a a_depth (more.reverse ++ stack) (ancestor :: visited) := by
  conv_lhs => rw [isAncestorLoop.eq_def]
  simp only [if_neg h]
  split
  · rename_i heq2
    rw [hl] at heq2
    exact Option.noConfusion heq2
  · rename_i d2 m2 heq2
    rw [hl] at heq2
    injection heq2 with heq3
    injection heq3 with hd1 hm1
    subst hd1
    subst hm1
    rw [if_neg hne, if_neg hd]

/-- DFS loop invariant: the candidate ancestor is never marked visited,
and for every visited node deeper than the candidate, each parent is
either visited or still on the stack. -/
def LoopInv (gr : List (Nat × GraphEntry)) (a a_depth : Nat)
    (stack visited : List Nat) : Prop :=
  ∀ v ∈ visited, v ≠ a ∧ ∀ d ps, alookup gr v = some (d, ps) → a_depth < d →
    ∀ p ∈ ps, p ∈ visited ∨ p ∈ stack

/-- A visited node above the candidate always leads back to a stack
node above the candidate: visited nodes have already pushed their
relevant parents. -/
theorem escape_visited {gr : List (Nat × GraphEntry)} (hwf : GraphWF gr)
    {a a_depth : Nat} {aps : List Nat}
    (ha : alookup gr a = some (a_depth, aps)) {stack visited : List Nat}
    (hinv : LoopInv gr a a_depth stack visited) {n : Nat}
    (hn : Ancestor gr a n) :
    n ∈ visited → ∃ m ∈ stack, Ancestor gr a m := by
  induction hn with
  | refl =>
      intro hnv
      exact absurd rfl (hinv a hnv).1
  | @step c d p ps hc hp hsub ih =>
      intro hnv
      have hc_ne : c ≠ a := (hinv c hnv).1
      have hca : Ancestor gr a c := Ancestor.step hc hp hsub
      have hlt : a_depth < d :=
        ancestor_depth_lt hwf hca (Ne.symm hc_ne) a_depth aps d ps ha hc
      rcases (hinv c hnv).2 d ps hc hlt p hp with hpv | hps
      · exact ih hpv
      · exact ⟨p, hps, hsub⟩

/-- Correctness of the DFS loop: under the invariant it neither
crashes nor misses, returning true exactly when some stack node is
above the candidate ancestor. -/
theorem isAncestorLoop_spec {gr : List (Nat × GraphEntry)} (hwf : GraphWF gr)
    {a a_depth : Nat} {aps : List Nat}
    (ha : alookup gr a = some (a_depth, aps)) :
    ∀ stack visited,
      (∀ s ∈ stack, ∃ e, alookup gr s = some e) →
      LoopInv gr a a_depth stack visited →
      ∃ r, isAncestorLoop gr a a_depth stack visited = some r ∧
        (r = true ↔ ∃ n ∈ stack, Ancestor gr a n) := by
  intro stack visited
  induction stack, visited using isAncestorLoop.induct gr a a_depth with
  | case1 visited =>
      intro _ _
      refine ⟨false, by rw [isAncestorLoop.eq_def], ?_⟩
      simp
  | case2 ancestor stack visited hv ih =>
      intro hkeys hinv
      have hkeys2 : ∀ s ∈ stack, ∃ e, alookup gr s = some e :=
        fun s hs => hkeys s (List.mem_cons_of_mem _ hs)
      have hinv2 : LoopInv gr a a_depth stack visited := by
        intro v hvv
        refine ⟨(hinv v hvv).1, ?_⟩
        intro d ps hvl hdeep p hp
        rcases (hinv v hvv).2 d ps hvl hdeep p hp with h0 | h0
        · exact Or.inl h0
        · rcases List.mem_cons.mp h0 with h1 | h1
          · exact Or.inl (h1 ▸ hv)
          · exact Or.inr h1
      obtain ⟨r, hr, hiff⟩ := ih hkeys2 hinv2
      refine ⟨r, by rw [isAncestorLoop_visited hv]; exact hr, ?_⟩
      constructor
      · intro hrt
        obtain ⟨n, hn, han⟩ := hiff.mp hrt
        exact ⟨n, List.mem_cons_of_mem _ hn, han⟩
      · rintro ⟨n, hn, han⟩
        rcases List.mem_cons.mp hn with h1 | h1
        · subst h1
          obtain ⟨m, hm, ham⟩ := escape_visited hwf ha hinv2 han hv
          exact hiff.mpr ⟨m, hm, ham⟩
        · exact hiff.mpr ⟨n, h1, han⟩
  | case3 ancestor stack visited hv hl =>
      intro hkeys _
      obtain ⟨e, he⟩ := hkeys ancestor (List.mem_cons_self _ _)
      rw [hl] at he
      exact Option.noConfusion he
  | case4 stack visited depth more hv hl =>
      intro hkeys _
      refine ⟨true, isAncestorLoop_found hv hl rfl, ?_⟩
      constructor
      · intro _
        exact ⟨a, List.mem_cons_self _ _, Ancestor.refl a⟩
      · intro _; rfl
  | case5 ancestor stack visited hv depth more hl hne hd ih =>
      intro hkeys hinv
      have hkeys2 : ∀ s ∈ stack, ∃ e, alookup gr s = some e :=
        fun s hs => hkeys s (List.mem_cons_of_mem _ hs)
      have hinv2 : LoopInv gr a a_depth stack (ancestor :: visited) := by
        intro v hvv
        rcases List.mem_cons.mp hvv with h1 | h1
        · subst h1
          refine ⟨hne, ?_⟩
          intro d ps hvl hdeep p hp
          rw [hl] at hvl
          injection hvl with h2
          injection h2 with h3 h4
          omega
        · refine ⟨(hinv v h1).1, ?_⟩
          intro d ps hvl hdeep p hp
          rcases (hinv v h1).2 d ps hvl hdeep p hp with h0 | h0
          · exact Or.inl (List.mem_cons_of_mem _ h0)
          · rcases List.mem_cons.mp h0 with h2 | h2
            · exact Or.inl (h2 ▸ List.mem_cons_self _ _)
            · exact Or.inr h2
      obtain ⟨r, hr, hiff⟩ := ih hkeys2 hinv2
      refine ⟨r, by rw [isAncestorLoop_shallow hv hl hne hd]; exact hr, ?_⟩
      constructor
      · intro hrt
        obtain ⟨n, hn, han⟩ := hiff.mp hrt
        exact ⟨n, List.mem_cons_of_mem _ hn, han⟩
      · rintro ⟨n, hn, han⟩
        rcases List.mem_cons.mp hn with h1 | h1
        · subst h1
          have := ancestor_depth_lt hwf han (fun h => hne h.symm) a_depth aps depth more ha hl
          omega
        · exact hiff.mpr ⟨n, h1, han⟩
  | case6 ancestor stack visited hv depth more hl hne hd ih =>
      intro hkeys hinv
      have hkeys2 : ∀ s ∈ more.reverse ++ stack, ∃ e, alookup gr s = some e := by
        intro s hs
        rcases List.mem_append.mp hs with h1 | h1
        · obtain ⟨d2, ps2, h2, _⟩ := hwf _ _ _ hl s (List.mem_reverse.mp h1)
          exact ⟨(d2, ps2), h2⟩
        · exact hkeys s (List.mem_cons_of_mem _ h1)
      have hinv2 : LoopInv gr a a_depth (more.reverse ++ stack) (ancestor :: visited) := by
        intro v hvv
        rcases List.mem_cons.mp hvv with h1 | h1
        · subst h1
          refine ⟨hne, ?_⟩
          intro d ps hvl _ p hp
          rw [hl] at hvl
          injection hvl with h2
          injection h2 with h3 h4
          subst h3; subst h4
          exact Or.inr (List.mem_append.mpr (Or.inl (List.mem_reverse.mpr hp)))
        · refine ⟨(hinv v h1).1, ?_⟩
          intro d ps hvl hdeep p hp
          rcases (hinv v h1).2 d ps hvl hdeep p hp with h0 | h0
          · exact Or.inl (List.mem_cons_of_mem _ h0)
          · rcases List.mem_cons.mp h0 with h2 | h2
            · exact Or.inl (h2 ▸ List.mem_cons_self _ _)
            · exact Or.inr (List.mem_append.mpr (Or.inr h2))
      obtain ⟨r, hr, hiff⟩ := ih hkeys2 hinv2
      refine ⟨r, by rw [isAncestorLoop_deep hv hl hne hd]; exact hr, ?_⟩
      constructor
      · intro hrt
        obtain ⟨n, hn, han⟩ := hiff.mp hrt
        rcases List.mem_append.mp hn with h1 | h1
        · exact ⟨ancestor, List.mem_cons_self _ _,
            Ancestor.step hl (List.mem_reverse.mp h1) han⟩
        · exact ⟨n, List.mem_cons_of_mem _ h1, han⟩
      · rintro ⟨n, hn, han⟩
        rcases List.mem_cons.mp hn with h1 | h1
        · subst h1
          obtain ⟨d2, ps2, p, hl2, hp, hsub⟩ := ancestor_inv han hne
          rw [hl] at hl2
          injection hl2 with h2
          injection h2 with h3 h4
          subst h3; subst h4
          exact hiff.mpr ⟨p, List.mem_append.mpr (Or.inl (List.mem_reverse.mpr hp)), hsub⟩
        · exact hiff.mpr ⟨n, List.mem_append.mpr (Or.inr h1), han⟩

theorem applyAGOps_append (l1 l2 : List AGOp) (g : AncestryGraph) :
    applyAGOps (l1 ++ l2) g = (applyAGOps l1 g).bind (applyAGOps l2) := by
  induction l1 generalizing g with
  | nil => simp [applyAGOps]
  | cons op rest ih =>
      simp only [List.cons_append, applyAGOps]
      cases applyAGOp g op with
      | none => simp
      | some g2 => simp [ih]

theorem recordExternalCommits_records {g1 : AncestryGraph} (h : AGInv g1)
    {cs : List Nat} {c : Nat} (hc : c ∈ cs) (hnone : alookup g1.value c = none) :
    ∃ v, alookup (recordExternalCommits g1 cs).value c = some v ∧
      alookup (recordExternalCommits g1 cs).graph v = some (1, []) := by
  induction cs generalizing g1 with
  | nil => simp at hc
  | cons c0 rest ih =>
      have hstep : recordExternalCommits g1 (c0 :: rest)
          = recordExternalCommits (recordExternalCommit g1 c0) rest := rfl
      obtain ⟨h2, hp2⟩ := agInv_recordExternalCommit h c0
      by_cases hcc : c = c0
      · subst hcc
        have hg2 : recordExternalCommit g1 c =
            { cur_value := g1.cur_value + 1,
              value := ainsert g1.value c (g1.cur_value + 1),
              graph := ainsert g1.graph (g1.cur_value + 1) (1, []) } := by
          unfold recordExternalCommit
          rw [hnone]
        obtain ⟨_, hpersist⟩ := agInv_recordExternalCommits h2 rest
        refine ⟨g1.cur_value + 1, ?_, ?_⟩
        · rw [hstep]
          refine hpersist.1 c _ ?_
          rw [hg2]
          exact alookup_ainsert_self _ _ _
        · rw [hstep]
          refine hpersist.2.1 _ _ ?_
          rw [hg2]
          exact alookup_ainsert_self _ _ _
      · have hc' : c ∈ rest := by
          rcases List.mem_cons.mp hc with h1 | h1
          · exact absurd h1 hcc
          · exact h1
        have hnone2 : alookup (recordExternalCommit g1 c0).value c = none := by
          unfold recordExternalCommit
          cases h0 : alookup g1.value c0 with
          | some v => exact hnone
          | none =>
              dsimp only
              rw [alookup_ainsert_ne _ _ _ _ hcc]
              exact hnone
        rw [hstep]
        exact ih h2 hc' hnone2

theorem is_ancestor_eq {g : AncestryGraph} {A B av bv : Nat} {e : GraphEntry}
    (hA : alookup g.value A = some av) (hB : alookup g.value B = some bv)
    (he : alookup g.graph av = some e) :
    is_ancestor g A B = isAncestorLoop g.graph av e.1 [bv] [] := by
  unfold is_ancestor
  simp only [Option.bind_eq_bind, hA, hB, he, Option.some_bind]

/-- C4: for commits recorded through the public operations, with
parents always recorded before children, `is_ancestor(a, b)` succeeds
and returns true exactly when a directed chain of parent edges links
`b` back to `a`; the depth-based pruning of the DFS never loses a
reachable ancestor. -/
theorem is_ancestor_path_correct (ops : List AGOp) (g : AncestryGraph)
    (hops : applyAGOps ops emptyAncestryGraph = some g)
    (A B av bv : Nat)
    (hA : alookup g.value A = some av) (hB : alookup g.value B = some bv) :
    ∃ r, is_ancestor g A B = some r ∧ (r = true ↔ Ancestor g.graph av bv) := by
  obtain ⟨hinv, _⟩ := agInv_applyAGOps ops agInv_empty hops
  have hwf := graphWF_of_agInv hinv
  obtain ⟨⟨a_depth, aps⟩, ha⟩ := hinv.value_graph A av hA
  obtain ⟨eb, hb⟩ := hinv.value_graph B bv hB
  have hkeys : ∀ s ∈ [bv], ∃ e, alookup g.graph s = some e := by
    intro s hs
    rcases List.mem_cons.mp hs with h1 | h1
    · subst h1; exact ⟨eb, hb⟩
    · simp at h1
  have hinv0 : LoopInv g.graph av a_depth [bv] [] := by
    intro v hv; simp at hv
  obtain ⟨r, hr, hiff⟩ := isAncestorLoop_spec hwf ha [bv] [] hkeys hinv0
  refine ⟨r, ?_, ?_⟩
  · rw [is_ancestor_eq hA hB ha]
    exact hr
  · rw [hiff]
    constructor
    · rintro ⟨n, hn, han⟩
      rcases List.mem_cons.mp hn with h1 | h1
      · exact h1 ▸ han
      · simp at h1
    · intro h
      exact ⟨bv, List.mem_cons_self _ _, h⟩

/-- Witness for C4 on a three-commit chain: an external root, a child
and a grandchild; the root is an ancestor of the grandchild. -/
theorem is_ancestor_path_correct_witness :
    is_ancestor ⟨3, [(100, 1), (1, 2), (2, 3)],
        [(1, (1, [])), (2, (2, [1])), (3, (3, [2]))]⟩ 100 2 = some true := by
  obtain ⟨r, hr, hiff⟩ := is_ancestor_path_correct
    [.external [100], .addCommit 1 [100], .addCommit 2 [1]]
    ⟨3, [(100, 1), (1, 2), (2, 3)], [(1, (1, [])), (2, (2, [1])), (3, (3, [2]))]⟩
    (by decide) 100 2 1 3 (by decide) (by decide)
  have hanc : Ancestor [(1, (1, [])), (2, (2, [1])), (3, (3, [2]))] 1 3 :=
    @Ancestor.step [(1, (1, [])), (2, (2, [1])), (3, (3, [2]))] 1 3 3 2 [2]
      (by decide) (by decide)
      (@Ancestor.step [(1, (1, [])), (2, (2, [1])), (3, (3, [2]))] 1 2 2 1 [1]
        (by decide) (by decide) (Ancestor.refl 1))
  rw [hiff.mpr hanc] at hr
  exact hr

/-- C10: `is_ancestor(a, a)` returns true for every recorded commit:
the DFS starts at the target node and matches it immediately, with no
need for a self edge. -/
theorem is_ancestor_reflexive (ops : List AGOp) (g : AncestryGraph)
    (hops : applyAGOps ops emptyAncestryGraph = some g)
    (A v : Nat) (hv : alookup g.value A = some v) :
    is_ancestor g A A = some true := by
  obtain ⟨hinv, _⟩ := agInv_applyAGOps ops agInv_empty hops
  obtain ⟨⟨d, ps⟩, he⟩ := hinv.value_graph A v hv
  rw [is_ancestor_eq hv hv he]
  exact isAncestorLoop_found (by simp) he rfl

/-- Witness for C10 at a root commit with no self edge. -/
theorem is_ancestor_reflexive_witness :
    is_ancestor ⟨1, [(5, 1)], [(1, (1, []))]⟩ 5 5 = some true :=
  is_ancestor_reflexive [.external [5]] ⟨1, [(5, 1)], [(1, (1, []))]⟩
    (by decide) 5 1 (by decide)

/-- C5: across any operation sequence with parents recorded first,
every graph entry's depth is one more than the maximal recorded depth
of its parents (so 1 when it has none), and every commit first
recorded by record_external_commits has depth 1 and no parents. -/
theorem ancestry_depth_invariant (ops : List AGOp) (g : AncestryGraph)
    (hops : applyAGOps ops emptyAncestryGraph = some g) :
    (∀ k d ps, alookup g.graph k = some (d, ps) →
        d = 1 + ((ps.map fun p => ((alookup g.graph p).getD (0, [])).1).foldr max 0)) ∧
    (∀ pre cs post c g1, ops = pre ++ AGOp.external cs :: post →
        applyAGOps pre emptyAncestryGraph = some g1 → c ∈ cs →
        alookup g1.value c = none →
        ∃ v, alookup g.value c = some v ∧ alookup g.graph v = some (1, [])) := by
  obtain ⟨hinv, _⟩ := agInv_applyAGOps ops agInv_empty hops
  constructor
  · intro k d ps hk
    exact (hinv.depth_formula k d ps hk).2
  · intro pre cs post c g1 hsplit hpre hc hnone
    subst hsplit
    rw [applyAGOps_append, hpre, Option.some_bind] at hops
    simp only [applyAGOps, applyAGOp, Option.some_bind] at hops
    obtain ⟨hinv1, _⟩ := agInv_applyAGOps pre agInv_empty hpre
    obtain ⟨hinvmid, _⟩ := agInv_recordExternalCommits hinv1 cs
    obtain ⟨_, hpersist⟩ := agInv_applyAGOps post hinvmid hops
    obtain ⟨v, hv1, hv2⟩ := recordExternalCommits_records hinv1 hc hnone
    exact ⟨v, hpersist.1 c v hv1, hpersist.2.1 v _ hv2⟩

/-- Witness for C5 on the three-commit chain: the grandchild's depth is
one more than its parent's, and the external root got entry (1, []). -/
theorem ancestry_depth_invariant_witness :
    (3 : Nat) = 1 + (([2].map fun p =>
        ((alookup ([(1, (1, [])), (2, (2, [1])), (3, (3, [2]))] :
          List (Nat × GraphEntry)) p).getD (0, [])).1).foldr max 0) ∧
    ∃ v, alookup ([(100, 1), (1, 2), (2, 3)] : List (Nat × Nat)) 100 = some v ∧
      alookup ([(1, (1, [])), (2, (2, [1])), (3, (3, [2]))] :
        List (Nat × GraphEntry)) v = some (1, []) := by
  have h := ancestry_depth_invariant
    [.external [100], .addCommit 1 [100], .addCommit 2 [1]]
    ⟨3, [(100, 1), (1, 2), (2, 3)], [(1, (1, [])), (2, (2, [1])), (3, (3, [2]))]⟩
    (by decide)
  constructor
  · exact h.1 3 3 [2] (by decide)
  · exact h.2 [] [100] [.addCommit 1 [100], .addCommit 2 [1]] 100
      emptyAncestryGraph rfl rfl (by decide) (by decide)

/-! ## fastexportparser.py (progress and checkpoint elements) -/

/-- Parser state: the pending input lines (each line as produced by
readline, carrying its trailing newline), the current line, and the
lines written to the output handle so far. -/
structure ParserState where
  input : List Bytes
  currentline : Bytes
  output : List Bytes
deriving DecidableEq, Repr

/-- readline on the input handle: the next line, or an empty byte
string at end of input. -/
def readline : List Bytes → Bytes × List Bytes
  | [] => ([], [])
  | l :: rest => (l, rest)

/-- FastExportParser._advance_currentline. -/
def advanceCurrentline (st : ParserState) : ParserState :=
  { st with currentline := (readline st.input).1, input := (readline st.input).2 }

/-- Match of the compiled pattern `refname + b" (.*)\n$"` against a
line read by readline (such lines contain at most one newline, at the
end): the line must be the refname, a space, a newline-free message and
the final newline; the captured group is the message. -/
def matchRefLine (refname : Bytes) (line : Bytes) : Option Bytes :=
  if line.take (refname.length + 1) = refname ++ [32] ∧ line.getLast? = some 10 ∧
      10 ∉ line.dropLast then
    some ((line.drop (refname.length + 1)).dropLast)
  else none

/-- FastExportParser._parse_ref_line: `none` models the SystemExit on a
malformed line; on success the line is consumed. -/
def parseRefLine (refname : Bytes) (st : ParserState) : Option (Bytes × ParserState) :=
  match matchRefLine refname st.currentline with
  | none => none
  | some ref => some (ref, advanceCurrentline st)

/-- ASCII bytes of the word progress. -/
def progressWord : Bytes := [112, 114, 111, 103, 114, 101, 115, 115]

/-- FastExportParser._parse_progress with the default callbacks (no
progress callback registered): parse the message line, skip a blank
line, build the Progress element and deliberately write nothing to the
output. -/
def parseProgress (st : ParserState) : Option ParserState :=
  match parseRefLine progressWord st with
  | none => none
  | some (_message, st1) =>
      some (if st1.currentline = [10] then advanceCurrentline st1 else st1)

/-- FastExportParser._parse_checkpoint with the default callbacks:
advance past the checkpoint line, skip a blank line, build the
Checkpoint element and deliberately write nothing to the output. -/
def parseCheckpoint (st : ParserState) : ParserState :=
  let st1 := advanceCurrentline st
  if st1.currentline = [10] then advanceCurrentline st1 else st1

/-- C9: with default callbacks the engine consumes progress and
checkpoint elements without writing anything: the output stream is
untouched and only input is consumed.  The checkpoint conjunct holds
for every state, in particular for a state whose current line is a
checkpoint line. -/
theorem progress_checkpoint_silent (st : ParserState) :
    (∀ st2, parseProgress st = some st2 →
      st2.output = st.output ∧
        (st2.input = st.input.drop 1 ∨ st2.input = st.input.drop 2)) ∧
    ((parseCheckpoint st).output = st.output ∧
      ((parseCheckpoint st).input = st.input.drop 1 ∨
        (parseCheckpoint st).input = st.input.drop 2)) := by
  have hadv : ∀ s : ParserState, (advanceCurrentline s).output = s.output ∧
      (advanceCurrentline s).input = s.input.drop 1 := by
    intro s
    unfold advanceCurrentline
    cases s.input with
    | nil => exact ⟨rfl, rfl⟩
    | cons l rest => exact ⟨rfl, rfl⟩
  constructor
  · intro st2 h2
    unfold parseProgress parseRefLine at h2
    cases hm : matchRefLine progressWord st.currentline with
    | none => rw [hm] at h2; exact Option.noConfusion h2
    | some ref =>
        rw [hm] at h2
        injection h2 with h3
        subst h3
        by_cases hblank : (advanceCurrentline st).currentline = [10]
        · rw [if_pos hblank]
          constructor
          · rw [(hadv (advanceCurrentline st)).1, (hadv st).1]
          · refine Or.inr ?_
            rw [(hadv (advanceCurrentline st)).2, (hadv st).2]
            cases st.input <;> rfl
        · rw [if_neg hblank]
          exact ⟨(hadv st).1, Or.inl (hadv st).2⟩
  · unfold parseCheckpoint
    by_cases hblank : (advanceCurrentline st).currentline = [10]
    · rw [if_pos hblank]
      constructor
      · rw [(hadv (advanceCurrentline st)).1, (hadv st).1]
      · refine Or.inr ?_
        rw [(hadv (advanceCurrentline st)).2, (hadv st).2]
        cases st.input <;> rfl
    · rw [if_neg hblank]
      exact ⟨(hadv st).1, Or.inl (hadv st).2⟩

/-- Witness for C9 at two concrete states: a progress line with a
trailing blank line is consumed, and a state whose current line is a
checkpoint line is advanced past it; neither touches the output
buffer. -/
theorem progress_checkpoint_silent_witness :
    ((⟨[], [100, 111, 110, 101, 10], []⟩ : ParserState).output
        = (⟨[[10], [100, 111, 110, 101, 10]],
            [112, 114, 111, 103, 114, 101, 115, 115, 32, 104, 105, 10], []⟩ :
              ParserState).output ∧
      ((⟨[], [100, 111, 110, 101, 10], []⟩ : ParserState).input
          = ([[10], [100, 111, 110, 101, 10]] : List Bytes).drop 1 ∨
        (⟨[], [100, 111, 110, 101, 10], []⟩ : ParserState).input
          = ([[10], [100, 111, 110, 101, 10]] : List Bytes).drop 2)) ∧
    ((parseCheckpoint ⟨[[100, 111, 110, 101, 10]],
          [99, 104, 101, 99, 107, 112, 111, 105, 110, 116, 10], []⟩).output
        = ([] : List Bytes) ∧
      ((parseCheckpoint ⟨[[100, 111, 110, 101, 10]],
            [99, 104, 101, 99, 107, 112, 111, 105, 110, 116, 10], []⟩).input
          = ([[100, 111, 110, 101, 10]] : List Bytes).drop 1 ∨
        (parseCheckpoint ⟨[[100, 111, 110, 101, 10]],
            [99, 104, 101, 99, 107, 112, 111, 105, 110, 116, 10], []⟩).input
          = ([[100, 111, 110, 101, 10]] : List Bytes).drop 2)) :=
  ⟨(progress_checkpoint_silent
      ⟨[[10], [100, 111, 110, 101, 10]],
        [112, 114, 111, 103, 114, 101, 115, 115, 32, 104, 105, 10], []⟩).1
      ⟨[], [100, 111, 110, 101, 10], []⟩ (by decide),
   (progress_checkpoint_silent
      ⟨[[100, 111, 110, 101, 10]],
        [99, 104, 101, 99, 107, 112, 111, 105, 110, 116, 10], []⟩).2⟩

/-! ## repofilter.py: RepoFilter._prunable -/

/-- Setting of args.prune_empty. -/
inductive PruneMode
  | always
  | auto
  | never
deriving DecidableEq, Repr

/-- File change of a commit as `_prunable` and `_tweak_commit` see it:
the change type (68 is D, 77 is M, and DELETEALL or R occur too), the
filename, the optional mode and the optional blob id, which is either a
mark (int) or a textual hex id (bytes). -/
structure PFileChange where
  type : Bytes
  filename : Bytes
  mode : Option Bytes
  blob_id : Option (Nat ⊕ Bytes)
deriving DecidableEq, Repr

/-- Environment of a `_prunable` call: the relevant filter arguments
and state, with the fast-import pipe responses as oracles (`lsResp`
gives the whitespace-split tokens of the reply to `ls :parent path`,
`getMarkResp` the reply to `get-mark :mark`). -/
structure PrunableEnv where
  prune_empty : PruneMode
  skipped_commits : List Nat
  files_tweaked : List Bytes
  has_import_pipes : Bool
  lsResp : Nat → Bytes → List Bytes
  getMarkResp : Nat → Bytes

/-- Python truthiness of an optional integer mark (None and 0 are
falsy). -/
def pyTruthyMark : Option Nat → Bool
  | some n => decide (n ≠ 0)
  | none => false

/-- ASCII bytes of the token missing. -/
def missingWord : Bytes := [109, 105, 115, 115, 105, 110, 103]

/-- ASCII bytes of the token blob. -/
def blobWord : Bytes := [98, 108, 111, 98]

/-- Blob id used in the tree comparison: a mark is resolved through the
get-mark oracle, a textual id is used as is, a missing id compares
unequal to everything (Python None). -/
def blobShaOf (env : PrunableEnv) : Option (Nat ⊕ Bytes) → Option Bytes
  | some (Sum.inl mark) => some (env.getMarkResp mark)
  | some (Sum.inr sha) => some sha
  | none => none

/-- The parent queried by the loop: `new_1st_parent or
commit.parents[0]` with Python truthiness. -/
def lsParent (new_1st_parent : Option Nat) (parents : List Nat) : Nat :=
  match new_1st_parent with
  | some p => if p ≠ 0 then p else parents.headD 0
  | none => parents.headD 0

/-- One iteration of the tree-equivalence loop of `_prunable`: a Delete
must answer `missing <quoted path>`, anything else must answer
`<mode> blob <sha> <quoted path>`; a missing mode or blob id (Python
None inside the compared list) can never match. -/
def changeMatchesParent (env : PrunableEnv) (parent : Nat) (change : PFileChange) :
    Bool :=
  let quoted_filename := enquote change.filename
  let parent_version := env.lsResp parent quoted_filename
  if change.type = [68] then
    decide (parent_version = [missingWord, quoted_filename])
  else
    match change.mode, blobShaOf env change.blob_id with
    | some m, some blob_sha =>
        decide (parent_version = [m, blobWord, blob_sha, quoted_filename])
    | _, _ => false

/-- The tree-equivalence loop: short-circuits to false on the first
mismatch. -/
def treeEqLoop (env : PrunableEnv) (parent : Nat) : List PFileChange → Bool
  | [] => true
  | change :: rest => changeMatchesParent env parent change && treeEqLoop env parent rest

/-- Tail of `_prunable` after the merge and started-empty handling: the
remaining guards (no parents, no import pipes, files outside
files_tweaked with a single original parent) and then the
tree-equivalence check. -/
def prunableTail (env : PrunableEnv) (file_changes : List PFileChange)
    (parents : List Nat) (new_1st_parent : Option Nat) (orig_parents : List Nat) :
    Bool :=
  if parents.isEmpty then false
  else if env.has_import_pipes = false then false
  else if orig_parents.length < 2 ∧
      file_changes.any (fun c => decide (c.filename ∉ env.files_tweaked)) then false
  else
    treeEqLoop env (lsParent new_1st_parent parents) file_changes

/-- RepoFilter._prunable. -/
def prunable (env : PrunableEnv) (file_changes : List PFileChange)
    (parents : List Nat) (new_1st_parent : Option Nat) (had_file_changes : Bool)
    (orig_parents : List Nat) : Bool :=
  if env.prune_empty = PruneMode.never then false
  else
    if 2 ≤ parents.length ∧ pyTruthyMark new_1st_parent = false then false
    else if parents.length < 2 then
      if had_file_changes = false ∧ env.prune_empty ≠ PruneMode.always then
        file_changes.isEmpty &&
          (decide (parents.length < orig_parents.length) ||
            (decide (orig_parents.length = 1) &&
              decide (orig_parents.headD 0 ∈ env.skipped_commits)))
      else if file_changes.isEmpty then true
      else prunableTail env file_changes parents new_1st_parent orig_parents
    else prunableTail env file_changes parents new_1st_parent orig_parents

theorem treeEqLoop_eq_true_iff (env : PrunableEnv) (parent : Nat)
    (l : List PFileChange) :
    treeEqLoop env parent l = true ↔
      ∀ c ∈ l, changeMatchesParent env parent c = true := by
  induction l with
  | nil => simp [treeEqLoop]
  | cons c rest ih =>
      simp only [treeEqLoop, Bool.and_eq_true, ih, List.mem_cons]
      constructor
      · rintro ⟨h1, h2⟩ c0 hc0
        rcases hc0 with h3 | h3
        · exact h3 ▸ h1
        · exact h2 c0 h3
      · intro h
        exact ⟨h c (Or.inl rfl), fun c0 hc0 => h c0 (Or.inr hc0)⟩

theorem changeMatchesParent_iff (env : PrunableEnv) (parent : Nat) (c : PFileChange)
    (htype : c.type = [68] ∨ c.type = [77]) :
    changeMatchesParent env parent c = true ↔
      ((c.type = [68] →
          env.lsResp parent (enquote c.filename) = [missingWord, enquote c.filename]) ∧
       (c.type = [77] →
          ∃ m blob_sha, c.mode = some m ∧ blobShaOf env c.blob_id = some blob_sha ∧
            env.lsResp parent (enquote c.filename)
              = [m, blobWord, blob_sha, enquote c.filename])) := by
  rcases htype with h68 | h77
  · simp [changeMatchesParent, h68]
  · have hne : ¬ (c.type = [68]) := by rw [h77]; decide
    cases hm : c.mode with
    | none =>
        simp [changeMatchesParent, h77, hm]
    | some m =>
        cases hb : blobShaOf env c.blob_id with
        | none => simp [changeMatchesParent, h77, hm, hb]
        | some blob_sha => simp [changeMatchesParent, h77, hm, hb]

/-- C1: once a commit reaches the tree-equivalence check of `_prunable`
(prune_empty is not never, the merge guard and the started-empty branch
did not decide, it still has file changes, has parents and the engine
has import pipes, and with a single original parent no changed file
escaped files_tweaked), the commit is prunable exactly when every
remaining change is already reflected in the new first parent: a Delete
answers `missing <quoted path>` to ls, and a Modify answers the
change's mode, the token blob, the blob id (resolved through get-mark
when it is a mark) and the quoted path. -/
theorem prunable_tree_equivalence_check
    (env : PrunableEnv) (file_changes : List PFileChange) (parents : List Nat)
    (new_1st_parent : Option Nat) (had_file_changes : Bool) (orig_parents : List Nat)
    (h_never : env.prune_empty ≠ PruneMode.never)
    (h_changes : file_changes ≠ [])
    (h_merge : ¬ (2 ≤ parents.length ∧ pyTruthyMark new_1st_parent = false))
    (h_started : ¬ (parents.length < 2 ∧ had_file_changes = false ∧
        env.prune_empty ≠ PruneMode.always))
    (h_parents : parents ≠ [])
    (h_pipes : env.has_import_pipes = true)
    (h_tweaked : ¬ (orig_parents.length < 2 ∧
        ∃ c ∈ file_changes, c.filename ∉ env.files_tweaked))
    (h_types : ∀ c ∈ file_changes, c.type = [68] ∨ c.type = [77]) :
    prunable env file_changes parents new_1st_parent had_file_changes orig_parents
        = true
      ↔ ∀ c ∈ file_changes,
          (c.type = [68] →
            env.lsResp (lsParent new_1st_parent parents) (enquote c.filename)
              = [missingWord, enquote c.filename]) ∧
          (c.type = [77] →
            ∃ m blob_sha, c.mode = some m ∧ blobShaOf env c.blob_id = some blob_sha ∧
              env.lsResp (lsParent new_1st_parent parents) (enquote c.filename)
                = [m, blobWord, blob_sha, enquote c.filename]) := by
  have hne : file_changes.isEmpty = false := by
    cases file_changes with
    | nil => exact absurd rfl h_changes
    | cons a l => rfl
  have htail : prunable env file_changes parents new_1st_parent had_file_changes
      orig_parents = prunableTail env file_changes parents new_1st_parent orig_parents := by
    unfold prunable
    rw [if_neg h_never, if_neg h_merge]
    by_cases hlen : parents.length < 2
    · rw [if_pos hlen]
      have hcond : ¬ (had_file_changes = false ∧ env.prune_empty ≠ PruneMode.always) :=
        fun hc => h_started ⟨hlen, hc.1, hc.2⟩
      rw [if_neg hcond, if_neg (by simp [hne])]
    · rw [if_neg hlen]
  have hpe : ¬ (parents.isEmpty = true) := by
    cases parents with
    | nil => exact absurd rfl h_parents
    | cons a l => simp
  have htail2 : prunableTail env file_changes parents new_1st_parent orig_parents
      = treeEqLoop env (lsParent new_1st_parent parents) file_changes := by
    unfold prunableTail
    rw [if_neg hpe, if_neg (by simp [h_pipes])]
    rw [if_neg ?_]
    intro hc
    refine h_tweaked ⟨hc.1, ?_⟩
    obtain ⟨c, hcmem, hcdec⟩ := List.any_eq_true.mp hc.2
    exact ⟨c, hcmem, of_decide_eq_true hcdec⟩
  rw [htail, htail2, treeEqLoop_eq_true_iff]
  constructor
  · intro h c hc
    exact (changeMatchesParent_iff env _ c (h_types c hc)).mp (h c hc)
  · intro h c hc
    exact (changeMatchesParent_iff env _ c (h_types c hc)).mpr (h c hc)

/-- Witness for C1: a commit with one Delete change whose parent tree
already lacks the file, so the check reports it prunable. -/
theorem prunable_tree_equivalence_check_witness :
    prunable
        ⟨PruneMode.auto, [], [[97]], true,
          fun _ q => [missingWord, q], fun _ => []⟩
        [⟨[68], [97], none, none⟩] [7] none true [9] = true :=
  (prunable_tree_equivalence_check
      ⟨PruneMode.auto, [], [[97]], true, fun _ q => [missingWord, q], fun _ => []⟩
      [⟨[68], [97], none, none⟩] [7] none true [9]
      (by decide) (by simp) (by simp [pyTruthyMark]) (by simp)
      (by simp) rfl (by simp) (by intro c hc; simp at hc; subst hc; exact Or.inl rfl)).mpr
    (by
      intro c hc
      simp at hc
      subst hc
      exact ⟨fun _ => rfl, fun h77 => by simp at h77⟩)

/-- C2 counterexample: under prune_empty auto, a commit that started
with no file changes, whose single original parent (mark 5) was pruned,
and which still has no file changes, gets prunable = true: it is
skipped, not kept. -/
theorem started_empty_sole_parent_pruned_cex :
    prunable
        ⟨PruneMode.auto, [5], [], true, fun _ _ => [], fun _ => []⟩
        [] [] none false [5] = true := rfl

/-- C2 amended: under prune_empty auto, every commit that started with
no file changes, whose single original parent was pruned, and which
still has no file changes after transformation, is pruned (the
prunability test returns true and the commit is skipped). -/
theorem started_empty_sole_parent_pruned_is_pruned
    (env : PrunableEnv) (parents : List Nat) (new_1st_parent : Option Nat)
    (orig_parent : Nat)
    (h_auto : env.prune_empty = PruneMode.auto)
    (h_pruned : orig_parent ∈ env.skipped_commits)
    (h_len : parents.length ≤ 1) :
    prunable env [] parents new_1st_parent false [orig_parent] = true := by
  unfold prunable
  rw [if_neg (by rw [h_auto]; decide)]
  rw [if_neg (by intro hc; omega)]
  rw [if_pos (by omega)]
  rw [if_pos (by refine ⟨rfl, ?_⟩; rw [h_auto]; decide)]
  simp [h_pruned]

/-- Witness for the amended C2. -/
theorem started_empty_sole_parent_pruned_witness :
    prunable
        ⟨PruneMode.auto, [5], [], true, fun _ _ => [], fun _ => []⟩
        [] [3] (some 3) false [5] = true :=
  started_empty_sole_parent_pruned_is_pruned
    ⟨PruneMode.auto, [5], [], true, fun _ _ => [], fun _ => []⟩
    [3] (some 3) 5 rfl (by decide) (by decide)

/-! ## repofilter.py: the file-change loop of RepoFilter._tweak_commit -/

/-- ASCII bytes of DELETEALL. -/
def deleteallWord : Bytes := [68, 69, 76, 69, 84, 69, 65, 76, 76]

/-- Environment of the file-change loop: the path filter/rename
(`newname` composed with the optional filename callback; `none` means
the file is excluded), and the two blob-stripping tests
(max_blob_size/unpacked_size and strip_blobs_with_ids). -/
structure TweakEnv where
  rename : Bytes → Option Bytes
  sizeStrip : Option (Nat ⊕ Bytes) → Bool
  idStrip : Option (Nat ⊕ Bytes) → Bool

/-- Loop state: the `_newnames` cache (which stores the computed new
name under the new name itself, Python None being a possible key and
value) and the `new_file_changes` dict in insertion order. -/
structure TweakState where
  newnames : List (Option Bytes × Option Bytes)
  nfc : List (Bytes × PFileChange)

/-- Cache lookup and rename of one filename, returning the resulting
filename and the updated `_newnames` cache. -/
def effectiveFilename (env : TweakEnv) (st : TweakState) (c : PFileChange) :
    Option Bytes × List (Option Bytes × Option Bytes) :=
  match alookup st.newnames (some c.filename) with
  | some r => (r, st.newnames)
  | none =>
      let r := env.rename c.filename
      (r, ainsert st.newnames r r)

/-- Blob stripping and insertion at the end of the loop body. -/
def stripAndInsert (env : TweakEnv) (st : TweakState) (fn : Bytes)
    (change : PFileChange) : TweakState :=
  if env.sizeStrip change.blob_id then st
  else if env.idStrip change.blob_id then st
  else { st with nfc := ainsert st.nfc fn change }

/-- State after the filename cache step of the loop body. -/
def renamedState (env : TweakEnv) (st : TweakState) (change : PFileChange) :
    TweakState :=
  { st with newnames := (effectiveFilename env st change).2 }

/-- One iteration of the file-change loop of `_tweak_commit`:
DELETEALL is stored under the empty path; otherwise the filename is
renamed through the cache, empty or excluded names are dropped, a
collision with an existing entry keeps the other change when the
incoming one is a Delete or an identical Modify, aborts fatally when
the existing entry is not a Delete, and otherwise falls through to the
stripping checks and the insertion. -/
def processChange (env : TweakEnv) (st : TweakState) (change : PFileChange) :
    Except Unit TweakState :=
  if change.type = deleteallWord then
    Except.ok { st with nfc := ainsert st.nfc [] change }
  else
    match (effectiveFilename env st change).1 with
    | none => Except.ok (renamedState env st change)
    | some fn =>
        if fn = [] then Except.ok (renamedState env st change)
        else
          match alookup st.nfc fn with
          | some colliding_change =>
              if change.type = [68] then Except.ok (renamedState env st change)
              else if change.type = [77] ∧ change.mode = colliding_change.mode ∧
                  change.blob_id = colliding_change.blob_id then
                Except.ok (renamedState env st change)
              else if colliding_change.type ≠ [68] then Except.error ()
              else
                Except.ok (stripAndInsert env (renamedState env st change) fn
                  { change with filename := fn })
          | none =>
              Except.ok (stripAndInsert env (renamedState env st change) fn
                { change with filename := fn })

/-- Lexicographic byte-string comparison, as Python compares bytes. -/
def lexLe : Bytes → Bytes → Bool
  | [], _ => true
  | _ :: _, [] => false
  | a :: as2, b :: bs => if a < b then true else if a = b then lexLe as2 bs else false

/-- Key order of `sorted(new_file_changes.items())`: dict keys are
unique, so the pairs sort by path. -/
def keyLe (a b : Bytes × PFileChange) : Prop := lexLe a.1 b.1 = true

instance : DecidableRel keyLe := fun a b => by unfold keyLe; infer_instance

/-- The whole file-change transformation: fold the loop body over the
changes and emit the values of the map sorted by path. -/
def tweakFileChanges (env : TweakEnv) (changes : List PFileChange) :
    Except Unit (List PFileChange) := do
  let st ← changes.foldlM (processChange env) ⟨[], []⟩
  pure ((List.insertionSort keyLe st.nfc).map (·.2))

theorem lexLe_total (a b : Bytes) : lexLe a b = true ∨ lexLe b a = true := by
  induction a generalizing b with
  | nil => left; rfl
  | cons x xs ih =>
      cases b with
      | nil => right; rfl
      | cons y ys =>
          rcases Nat.lt_trichotomy x y with h | h | h
          · left; simp [lexLe, h]
          · subst h
            rcases ih ys with h2 | h2
            · left; simp [lexLe, h2]
            · right; simp [lexLe, h2]
          · right
            simp [lexLe, h]

theorem lexLe_trans {a b c : Bytes} (h1 : lexLe a b = true) (h2 : lexLe b c = true) :
    lexLe a c = true := by
  induction a generalizing b c with
  | nil => rfl
  | cons x xs ih =>
      cases b with
      | nil => simp [lexLe] at h1
      | cons y ys =>
          cases c with
          | nil => simp [lexLe] at h2
          | cons z zs =>
              simp only [lexLe] at h1 h2 ⊢
              by_cases hxy : x < y
              · by_cases hyz : y < z
                · rw [if_pos (Nat.lt_trans hxy hyz)]
                · by_cases hyz2 : y = z
                  · subst hyz2; rw [if_pos hxy]
                  · simp [hyz, hyz2] at h2
              · by_cases hxy2 : x = y
                · subst hxy2
                  rw [if_neg hxy] at h1
                  rw [if_pos rfl] at h1
                  by_cases hyz : x < z
                  · rw [if_pos hyz]
                  · by_cases hyz2 : x = z
                    · subst hyz2
                      rw [if_neg hyz, if_pos rfl]
                      rw [if_neg hyz, if_pos rfl] at h2
                      exact ih h1 h2
                    · simp [hyz, hyz2] at h2
                · simp [hxy, hxy2] at h1

instance : IsTotal (Bytes × PFileChange) keyLe :=
  ⟨fun a b => lexLe_total a.1 b.1⟩

instance : IsTrans (Bytes × PFileChange) keyLe :=
  ⟨fun _ _ _ h1 h2 => lexLe_trans h1 h2⟩

/-- Every map entry is stored under its own filename. -/
def NfcKeyed (nfc : List (Bytes × PFileChange)) : Prop :=
  ∀ e ∈ nfc, e.2.filename = e.1

theorem nfcKeyed_ainsert {nfc : List (Bytes × PFileChange)} (h : NfcKeyed nfc)
    {k : Bytes} {c : PFileChange} (hc : c.filename = k) :
    NfcKeyed (ainsert nfc k c) := by
  induction nfc with
  | nil =>
      intro e he
      simp [ainsert] at he
      subst he
      exact hc
  | cons hd tl ih =>
      obtain ⟨k0, v0⟩ := hd
      intro e he
      by_cases hk : k = k0
      · subst hk
        simp only [ainsert, if_pos rfl] at he
        rcases List.mem_cons.mp he with h1 | h1
        · subst h1; exact hc
        · exact h e (List.mem_cons_of_mem _ h1)
      · simp only [ainsert, if_neg hk] at he
        rcases List.mem_cons.mp he with h1 | h1
        · subst h1; exact h (k0, v0) (List.mem_cons_self _ _)
        · exact ih (fun e2 he2 => h e2 (List.mem_cons_of_mem _ he2)) e h1

theorem renamedState_nfc (env : TweakEnv) (st : TweakState) (change : PFileChange) :
    (renamedState env st change).nfc = st.nfc := rfl

theorem nfcKeyed_stripAndInsert {env : TweakEnv} (stx : TweakState)
    (hx : NfcKeyed stx.nfc) (fn : Bytes) (change2 : PFileChange)
    (hc2 : change2.filename = fn) :
    NfcKeyed (stripAndInsert env stx fn change2).nfc := by
  unfold stripAndInsert
  by_cases hs1 : env.sizeStrip change2.blob_id = true
  · rw [if_pos hs1]; exact hx
  · rw [if_neg hs1]
    by_cases hs2 : env.idStrip change2.blob_id = true
    · rw [if_pos hs2]; exact hx
    · rw [if_neg hs2]
      exact nfcKeyed_ainsert hx hc2

theorem nfcKeyed_processChange {env : TweakEnv} {st st2 : TweakState}
    {change : PFileChange} (h : NfcKeyed st.nfc)
    (hda : change.type = deleteallWord → change.filename = [])
    (hp : processChange env st change = Except.ok st2) : NfcKeyed st2.nfc := by
  unfold processChange at hp
  by_cases h1 : change.type = deleteallWord
  · rw [if_pos h1] at hp
    injection hp with h2
    subst h2
    exact nfcKeyed_ainsert h (hda h1)
  · rw [if_neg h1] at hp
    cases hres : (effectiveFilename env st change).1 with
    | none =>
        rw [hres] at hp
        injection hp with h2
        subst h2
        exact h
    | some fn =>
        rw [hres] at hp
        dsimp only at hp
        by_cases hfn : fn = []
        · rw [if_pos hfn] at hp
          injection hp with h2
          subst h2
          exact h
        · rw [if_neg hfn] at hp
          cases hcol : alookup st.nfc fn with
          | some colliding =>
              rw [hcol] at hp
              dsimp only at hp
              by_cases hc1 : change.type = [68]
              · rw [if_pos hc1] at hp
                injection hp with h2
                subst h2
                exact h
              · rw [if_neg hc1] at hp
                by_cases hc2 : change.type = [77] ∧ change.mode = colliding.mode ∧
                    change.blob_id = colliding.blob_id
                · rw [if_pos hc2] at hp
                  injection hp with h2
                  subst h2
                  exact h
                · rw [if_neg hc2] at hp
                  by_cases hc3 : colliding.type ≠ [68]
                  · rw [if_pos hc3] at hp
                    exact Except.noConfusion hp
                  · rw [if_neg hc3] at hp
                    injection hp with h2
                    subst h2
                    exact nfcKeyed_stripAndInsert (renamedState env st change) h fn { change with filename := fn } rfl
          | none =>
              rw [hcol] at hp
              injection hp with h2
              subst h2
              exact nfcKeyed_stripAndInsert (renamedState env st change) h fn { change with filename := fn } rfl

theorem nfcKeyed_foldlM {env : TweakEnv} (changes : List PFileChange) :
    ∀ st st2 : TweakState, NfcKeyed st.nfc →
      (∀ c ∈ changes, c.type = deleteallWord → c.filename = []) →
      changes.foldlM (processChange env) st = Except.ok st2 → NfcKeyed st2.nfc := by
  induction changes with
  | nil =>
      intro st st2 h _ hfold
      injection hfold with h2
      subst h2
      exact h
  | cons c rest ih =>
      intro st st2 h hda hfold
      simp only [List.foldlM_cons] at hfold
      cases hstep : processChange env st c with
      | error e => rw [hstep] at hfold; exact Except.noConfusion hfold
      | ok stmid =>
          rw [hstep] at hfold
          exact ih stmid st2
            (nfcKeyed_processChange h (hda c (List.mem_cons_self _ _)) hstep)
            (fun c2 hc2 => hda c2 (List.mem_cons_of_mem _ hc2)) hfold

theorem pairwise_keyed_map {nfc : List (Bytes × PFileChange)} (hkeyed : NfcKeyed nfc)
    {l : List (Bytes × PFileChange)} (hsub : ∀ e ∈ l, e ∈ nfc)
    (hp : List.Pairwise keyLe l) :
    List.Pairwise (fun a b : Bytes => lexLe a b = true)
      (l.map (fun e => e.2.filename)) := by
  induction hp with
  | nil => simp
  | @cons a l2 hhd _htl ih =>
      simp only [List.map_cons]
      refine List.Pairwise.cons ?_ (ih (fun e he => hsub e (List.mem_cons_of_mem _ he)))
      intro b hb
      obtain ⟨e, he, heq⟩ := List.mem_map.mp hb
      have h1 := hkeyed a (hsub a (List.mem_cons_self _ _))
      have h2 := hkeyed e (hsub e (List.mem_cons_of_mem _ he))
      rw [← heq, h1, h2]
      exact hhd e he

/-- C6: collision handling in the file-change transformation and
ordering of its result.  When the post-rename path of a change
collides with an already recorded entry: an incoming Delete is
discarded and the recorded change kept; an incoming Modify identical
in mode and blob id to the recorded change is discarded; in every
other case where the recorded entry is not a Delete the run aborts
fatally.  And every file-change list the transformation produces is
sorted by path. -/
theorem tweak_collisions_and_sorted :
    (∀ (env : TweakEnv) (st : TweakState) (change : PFileChange) (fn : Bytes)
        (colliding : PFileChange),
      change.type ≠ deleteallWord →
      (effectiveFilename env st change).1 = some fn → fn ≠ [] →
      alookup st.nfc fn = some colliding →
      ((change.type = [68] →
          processChange env st change = Except.ok (renamedState env st change) ∧
          alookup (renamedState env st change).nfc fn = some colliding) ∧
       (change.type = [77] → change.mode = colliding.mode →
          change.blob_id = colliding.blob_id →
          processChange env st change = Except.ok (renamedState env st change) ∧
          alookup (renamedState env st change).nfc fn = some colliding) ∧
       (change.type ≠ [68] →
        ¬ (change.type = [77] ∧ change.mode = colliding.mode ∧
            change.blob_id = colliding.blob_id) →
        colliding.type ≠ [68] →
        processChange env st change = Except.error ()))) ∧
    (∀ (env : TweakEnv) (changes res : List PFileChange),
      (∀ c ∈ changes, c.type = deleteallWord → c.filename = []) →
      tweakFileChanges env changes = Except.ok res →
      List.Pairwise (fun a b : Bytes => lexLe a b = true)
        (res.map (fun c => c.filename))) := by
  constructor
  · intro env st change fn colliding h1 hres hfn hcol
    have hstep : ∀ X : Except Unit TweakState,
        (if change.type = [68] then Except.ok (renamedState env st change)
         else if change.type = [77] ∧ change.mode = colliding.mode ∧
             change.blob_id = colliding.blob_id then
           Except.ok (renamedState env st change)
         else if colliding.type ≠ [68] then Except.error ()
         else Except.ok (stripAndInsert env (renamedState env st change) fn
           { change with filename := fn })) = X →
        processChange env st change = X := by
      intro X hX
      unfold processChange
      rw [if_neg h1, hres]
      dsimp only
      rw [if_neg hfn, hcol]
      dsimp only
      exact hX
    refine ⟨?_, ?_, ?_⟩
    · intro hd
      exact ⟨hstep _ (by rw [if_pos hd]), hcol⟩
    · intro hm hmode hblob
      by_cases hd : change.type = [68]
      · exact ⟨hstep _ (by rw [if_pos hd]), hcol⟩
      · exact ⟨hstep _ (by rw [if_neg hd, if_pos ⟨hm, hmode, hblob⟩]), hcol⟩
    · intro hd hm hcd
      exact hstep _ (by rw [if_neg hd, if_neg hm, if_pos hcd])
  · intro env changes res hda hrun
    unfold tweakFileChanges at hrun
    cases hfold : changes.foldlM (processChange env) ⟨[], []⟩ with
    | error e =>
        rw [hfold] at hrun
        exact Except.noConfusion hrun
    | ok stf =>
        rw [hfold] at hrun
        injection hrun with h2
        subst h2
        have hkeyed : NfcKeyed stf.nfc :=
          nfcKeyed_foldlM changes ⟨[], []⟩ stf (by intro e he; simp at he) hda hfold
        have hsorted : List.Pairwise keyLe (List.insertionSort keyLe stf.nfc) :=
          List.sorted_insertionSort keyLe stf.nfc
        have hsub : ∀ e ∈ List.insertionSort keyLe stf.nfc, e ∈ stf.nfc :=
          fun e he => (List.perm_insertionSort keyLe stf.nfc).mem_iff.mp he
        rw [List.map_map]
        exact pairwise_keyed_map hkeyed hsub hsorted

/-- Witness for C6: a Delete colliding with a recorded Modify at path
`a` is discarded; a two-change input produces a path-sorted list. -/
theorem tweak_collisions_and_sorted_witness :
    (processChange ⟨fun f => some f, fun _ => false, fun _ => false⟩
        ⟨[], [([97], ⟨[77], [97], some [49], some (Sum.inl 3)⟩)]⟩
        ⟨[68], [97], none, none⟩
      = Except.ok (renamedState ⟨fun f => some f, fun _ => false, fun _ => false⟩
          ⟨[], [([97], ⟨[77], [97], some [49], some (Sum.inl 3)⟩)]⟩
          ⟨[68], [97], none, none⟩)) ∧
    List.Pairwise (fun a b : Bytes => lexLe a b = true)
      (([⟨[77], [98], some [49], some (Sum.inl 3)⟩,
         ⟨[77], [97], some [49], some (Sum.inl 4)⟩] : List PFileChange).map
        (fun c => c.filename) |>.reverse) := by
  constructor
  · exact ((tweak_collisions_and_sorted.1
      ⟨fun f => some f, fun _ => false, fun _ => false⟩
      ⟨[], [([97], ⟨[77], [97], some [49], some (Sum.inl 3)⟩)]⟩
      ⟨[68], [97], none, none⟩ [97] ⟨[77], [97], some [49], some (Sum.inl 3)⟩
      (by decide) rfl (by decide) rfl).1 rfl).1
  · have h := tweak_collisions_and_sorted.2
      ⟨fun f => some f, fun _ => false, fun _ => false⟩
      [⟨[77], [98], some [49], some (Sum.inl 3)⟩,
       ⟨[77], [97], some [49], some (Sum.inl 4)⟩]
      [⟨[77], [97], some [49], some (Sum.inl 4)⟩,
       ⟨[77], [98], some [49], some (Sum.inl 3)⟩]
      (by intro c hc hda; simp at hc; rcases hc with h | h <;> simp [h] at hda <;>
        exact absurd hda (by decide))
      rfl
    simpa using h

/-! ## repofilter.py: _flush_renames, _get_rename, _translate_commit_hash -/

/-- Rename-tracking state: `_commit_renames` (whose values may be None
for pruned commits), the ordered keys of `_pending_renames`, the
pending get-mark reply lines of the fast-import output pipe (already
stripped of the trailing newline), `_commit_short_old_hashes` keyed by
7-byte prefix, and `_commits_referenced_but_removed`. -/
structure TState where
  commit_renames : List (Bytes × Option Bytes)
  pending_renames : List Bytes
  stream : List Bytes
  short_old_hashes : List (Bytes × List Bytes)
  removed : List Bytes
deriving DecidableEq, Repr

/-- Inner loop of RepoFilter._flush_renames over the mutated fields
(the pending queue, the rename map and the pipe): pop the oldest
pending original id, read its new hash from the pipe, record it, and
stop when the sought hash was found or the backlog fell below the
limit. -/
def flushLoopAux (old_hash : Option Bytes) (limit : Nat) :
    List Bytes → List (Bytes × Option Bytes) → List Bytes →
      List (Bytes × Option Bytes) × List Bytes × List Bytes
  | [], cr, stream => (cr, [], stream)
  | orig_id :: rest, cr, stream =>
      let new_id := (readline stream).1
      let cr2 := ainsert cr orig_id (some new_id)
      let stream2 := (readline stream).2
      if old_hash = some orig_id then (cr2, rest, stream2)
      else if limit ≠ 0 ∧ rest.length < limit then (cr2, rest, stream2)
      else flushLoopAux old_hash limit rest cr2 stream2

/-- The flush loop threaded back through the state. -/
def flushLoop (old_hash : Option Bytes) (limit : Nat) (st : TState) : TState :=
  let res := flushLoopAux old_hash limit st.pending_renames st.commit_renames st.stream
  { st with commit_renames := res.1, pending_renames := res.2.1, stream := res.2.2 }

/-- RepoFilter._flush_renames: skip entirely when the backlog is small
against a nonzero limit, else drain through the loop. -/
def flushRenames (old_hash : Option Bytes) (limit : Nat) (st : TState) : TState :=
  if limit ≠ 0 ∧ st.pending_renames.length < 2 * limit then st
  else flushLoop old_hash limit st

/-- RepoFilter._get_rename: an already known truthy hash is returned at
once; a hash neither known nor pending is unknown; otherwise drain the
pending queue up to the sought hash and look again. -/
def getRename (old_hash : Bytes) (st : TState) : Option Bytes × TState :=
  let new_hash := (alookup st.commit_renames old_hash).bind id
  if new_hash.getD [] ≠ [] then (new_hash, st)
  else if old_hash ∉ st.pending_renames then (none, st)
  else
    let st2 := flushRenames (some old_hash) 0 st
    ((alookup st2.commit_renames old_hash).bind id, st2)

/-- RepoFilter._translate_commit_hash on an already extracted hash
token: exact known rename, else unique completion through the 7-byte
prefix table, else the token is left unchanged and recorded as
referenced but removed.  `none` models the failed assert when the
unique completion has no rename. -/
def translateCommitHash (old_hash : Bytes) (st : TState) : Option (Bytes × TState) :=
  match getRename old_hash st with
  | (some new_hash, st1) => some (new_hash.take old_hash.length, st1)
  | (none, st1) =>
      match alookup st1.short_old_hashes (old_hash.take 7) with
      | none => some (old_hash, { st1 with removed := old_hash :: st1.removed })
      | some possibilities =>
          let matched :=
            possibilities.filter (fun x => decide (x.take old_hash.length = old_hash))
          if matched.length ≠ 1 then
            some (old_hash, { st1 with removed := old_hash :: st1.removed })
          else
            match getRename (matched.headD []) st1 with
            | (some new_hash, st2) => some (new_hash.take old_hash.length, st2)
            | (none, _) => none

/-- C7: the three-way behaviour of hash translation.  A token with a
recorded rename becomes the new hash truncated to the token's length;
otherwise, when exactly one written commit's full original id extends
the token (same 7-byte prefix bucket and agreement on all the token's
bytes), that commit's new hash is used, truncated likewise; otherwise
the token stays unchanged and joins the referenced-but-removed set. -/
theorem translate_commit_hash_cases (old_hash : Bytes) (st : TState) :
    (∀ nh st1, getRename old_hash st = (some nh, st1) →
       translateCommitHash old_hash st = some (nh.take old_hash.length, st1)) ∧
    (∀ st1 possibilities full nh2 st2,
       getRename old_hash st = (none, st1) →
       alookup st1.short_old_hashes (old_hash.take 7) = some possibilities →
       possibilities.filter (fun x => decide (x.take old_hash.length = old_hash))
         = [full] →
       getRename full st1 = (some nh2, st2) →
       translateCommitHash old_hash st = some (nh2.take old_hash.length, st2)) ∧
    (∀ st1, getRename old_hash st = (none, st1) →
       (alookup st1.short_old_hashes (old_hash.take 7) = none ∨
        ∀ possibilities,
          alookup st1.short_old_hashes (old_hash.take 7) = some possibilities →
          (possibilities.filter
            (fun x => decide (x.take old_hash.length = old_hash))).length ≠ 1) →
       translateCommitHash old_hash st
           = some (old_hash, { st1 with removed := old_hash :: st1.removed }) ∧
       old_hash ∈ ({ st1 with removed := old_hash :: st1.removed } : TState).removed) := by
  refine ⟨?_, ?_, ?_⟩
  · intro nh st1 hget
    unfold translateCommitHash
    rw [hget]
  · intro st1 possibilities full nh2 st2 hget hshort hfilter hget2
    unfold translateCommitHash
    rw [hget]
    dsimp only
    rw [hshort]
    dsimp only
    rw [hfilter]
    rw [if_neg (by simp)]
    have hhead : ([full] : List Bytes).headD [] = full := rfl
    rw [hhead, hget2]
  · intro st1 hget hfail
    unfold translateCommitHash
    rw [hget]
    dsimp only
    constructor
    · cases hshort : alookup st1.short_old_hashes (old_hash.take 7) with
      | none => rfl
      | some possibilities =>
          dsimp only
          rcases hfail with h1 | h1
          · rw [hshort] at h1
            exact Option.noConfusion h1
          · rw [if_pos (h1 possibilities hshort)]
    · exact List.mem_cons_self _ _

/-- Witness for C7 on a token with a recorded rename: the new hash is
truncated to the token's length. -/
theorem translate_commit_hash_cases_witness :
    translateCommitHash [97, 98, 99]
        ⟨[([97, 98, 99], some [88, 89, 90, 91])], [], [], [], []⟩
      = some ([88, 89, 90],
          ⟨[([97, 98, 99], some [88, 89, 90, 91])], [], [], [], []⟩) :=
  (translate_commit_hash_cases [97, 98, 99]
      ⟨[([97, 98, 99], some [88, 89, 90, 91])], [], [], [], []⟩).1
    [88, 89, 90, 91] ⟨[([97, 98, 99], some [88, 89, 90, 91])], [], [], [], []⟩
    (by decide)

end GitFilterRepo
